import Mathlib

/-!
Verification of the bootc `lint` engine (`lib/src/lints.rs`).

The Rust module implements `bootc container lint`: a registry of lint
rules, each either a whole-tree check (`LintFnTy::Regular`) or a per-node
check (`LintFnTy::Recursive`) multiplexed over a single filesystem walk.
This file is a shallow embedding of that module: the data model, the
execution engine (`lint_inner` / `lint`), and the individual check
functions that are implementable from the source, together with theorems
about them.

Modelling conventions:
* `LintResult = Result<Result<(), LintError>>` becomes
  `Except String (Except LintError Unit)`: the outer level is an
  unexpected runtime failure, the inner level a lint violation.
* The filesystem walk primitive (`cap_std_ext` `Dir::walk`) is external
  to the crate; per the module's contract it yields a sequence of
  `WalkComponent` entries.  We model a run of the walk as an arbitrary
  list of entries handed to the engine's callback, with the callback's
  `ControlFlow::Break` cutting the traversal short.
* Filesystem trees for whole-tree checks are modelled by `FsNode` with
  UTF-8 (String) entry names; the non-UTF-8 aspect of raw names only
  matters to the per-node `check_utf8` rule, whose `WalkComponent` model
  carries raw byte-list names.
-/

/-- Severity of a lint (`LintType` in the source): `Fatal` failures mean the
image is known broken, `Warning` is undesirable but not fatal. -/
inductive LintType where
  | Fatal
  | Warning
deriving DecidableEq, Repr

/-- Whether warnings count towards the failure verdict (`WarningDisposition`). -/
inductive WarningDisposition where
  | AllowWarnings
  | FatalWarnings
deriving DecidableEq, Repr

/-- Which root a rule applies to (`RootType`). -/
inductive RootType where
  | Running
  | Alternative
deriving DecidableEq, Repr, BEq

/-- A lint check has failed (`struct LintError(String)`). -/
structure LintError where
  msg : String
deriving DecidableEq, Repr

/-- `type LintResult = Result<Result<(), LintError>>`: the outer error is an
unexpected fatal runtime problem, the inner error an expected lint failure. -/
abbrev LintResult := Except String (Except LintError Unit)

/-- `lint_ok()`: no runtime error and the check passed. -/
def lint_ok : LintResult := Except.ok (Except.ok ())

/-- `lint_err(msg)`: the check ran successfully and found a violation. -/
def lint_err (msg : String) : LintResult := Except.ok (Except.error ⟨msg⟩)

/-- File type classification of a visited walk entry (`cap_std::fs::FileType`). -/
inductive FileType where
  | file
  | dir
  | symlink
  | other
deriving DecidableEq, Repr

/-- `FileType::is_symlink`. -/
def FileType.isSymlink : FileType → Bool
  | .symlink => true
  | _ => false

deriving instance DecidableEq for Except

/-- One visited node of the shared walk (`cap_std_ext::dirext::WalkComponent`):
the full path from the traversal root (as components, the base path `/` being
implicit), the raw (possibly non-UTF-8) leaf name as bytes, the file type,
and the result that `dir.read_link_contents(filename)` would return for a
symlink (modelling the on-demand read through the parent directory handle). -/
structure WalkEntry where
  path : List (List Nat)
  filename : List Nat
  file_type : FileType
  link_target : Except String (List Nat)
deriving DecidableEq, Repr

/-- Is `b` a UTF-8 continuation byte (`0x80..=0xBF`)? -/
def isUtf8Cont (b : Nat) : Bool := 0x80 ≤ b && b ≤ 0xBF

/-- Validity of a byte sequence as UTF-8, mirroring what
`OsStr::to_str(..).is_some()` decides in the source: the standard UTF-8
well-formedness automaton (RFC 3629 table). -/
def utf8Valid : List Nat → Bool
  | [] => true
  | b :: rest =>
    if b ≤ 0x7F then utf8Valid rest
    else if 0xC2 ≤ b && b ≤ 0xDF then
      match rest with
      | b2 :: r => isUtf8Cont b2 && utf8Valid r
      | [] => false
    else if b == 0xE0 then
      match rest with
      | b2 :: b3 :: r => (0xA0 ≤ b2 && b2 ≤ 0xBF) && isUtf8Cont b3 && utf8Valid r
      | _ => false
    else if (0xE1 ≤ b && b ≤ 0xEC) || b == 0xEE || b == 0xEF then
      match rest with
      | b2 :: b3 :: r => isUtf8Cont b2 && isUtf8Cont b3 && utf8Valid r
      | _ => false
    else if b == 0xED then
      match rest with
      | b2 :: b3 :: r => (0x80 ≤ b2 && b2 ≤ 0x9F) && isUtf8Cont b3 && utf8Valid r
      | _ => false
    else if b == 0xF0 then
      match rest with
      | b2 :: b3 :: b4 :: r =>
        (0x90 ≤ b2 && b2 ≤ 0xBF) && isUtf8Cont b3 && isUtf8Cont b4 && utf8Valid r
      | _ => false
    else if 0xF1 ≤ b && b ≤ 0xF3 then
      match rest with
      | b2 :: b3 :: b4 :: r =>
        isUtf8Cont b2 && isUtf8Cont b3 && isUtf8Cont b4 && utf8Valid r
      | _ => false
    else if b == 0xF4 then
      match rest with
      | b2 :: b3 :: b4 :: r =>
        (0x80 ≤ b2 && b2 ≤ 0x8F) && isUtf8Cont b3 && isUtf8Cont b4 && utf8Valid r
      | _ => false
    else false

/-- Hexadecimal digit character (uppercase), for byte escapes. -/
def hexDigitChar (n : Nat) : Char :=
  if n < 10 then Char.ofNat (48 + n) else Char.ofNat (55 + n)

/-- Render one raw byte: printable ASCII as itself, anything else as the
Rust-style escape `\xHH` (as in the source comment: escapes like
`"abc\xFFdéf"`). -/
def byteEscape (b : Nat) : String :=
  if 0x20 ≤ b && b ≤ 0x7E then String.singleton (Char.ofNat b)
  else String.singleton (Char.ofNat 92) ++ String.singleton (Char.ofNat 120)
    ++ String.singleton (hexDigitChar (b / 16 % 16))
    ++ String.singleton (hexDigitChar (b % 16))

/-- Render a whole byte string with `byteEscape`. -/
def bytesEscape (bs : List Nat) : String :=
  (bs.map byteEscape).foldl (fun a s => a ++ s) ("")

/-- Modelled from the spec: the `{filename:?}` Debug rendering of a raw
`OsStr` filename used by the utf8 rule's message — the name in double quotes
with non-printable bytes escaped as `\xHH` (the Debug formatter lives in the
Rust standard library, outside this repository). -/
def osstrDebug (bs : List Nat) : String :=
  String.singleton (Char.ofNat 34) ++ bytesEscape bs ++ String.singleton (Char.ofNat 34)

/-- Modelled from the spec: `bootc_utils::PathQuotedDisplay` (outside this
repository's core sources) renders a path for display; paths are rooted at
`/` (the walk uses `path_base("/")`). -/
def pathQuotedDisplay (p : List (List Nat)) : String :=
  match p with
  | [] => String.singleton (Char.ofNat 47)
  | comps =>
    (comps.map (fun c => String.singleton (Char.ofNat 47) ++ bytesEscape c)).foldl
      (fun a s => a ++ s) ("")

/-- `check_utf8`, the per-node body of the `utf8` lint: a non-UTF-8 raw
filename is a fatal violation naming the parent directory and the escaped
name; otherwise, for a symlink, a non-UTF-8 link target is a violation
naming the entry's own path.  A failure of the link read propagates as a
runtime error (the `?` in the source). -/
def check_utf8 (e : WalkEntry) : LintResult :=
  let path := e.path
  let filename := e.filename
  let dirname := path.dropLast
  if !utf8Valid filename then
    lint_err (pathQuotedDisplay dirname ++ ": Found non-utf8 filename " ++ osstrDebug filename)
  else if e.file_type.isSymlink then
    match e.link_target with
    | Except.error err => Except.error err
    | Except.ok target =>
      if !utf8Valid target then
        lint_err (pathQuotedDisplay path ++ ": Found non-utf8 symlink target")
      else lint_ok
  else lint_ok

mutual
/-- A node of a filesystem tree as seen by the whole-tree checks.  Entry
names are modelled as UTF-8 strings: the whole-tree checks in the source
read names through `entries_utf8` (which fails on non-UTF-8 names) or look
up fixed ASCII paths, and the non-UTF-8 corner is exercised only by the
per-node `utf8` rule, modelled separately on raw-byte `WalkEntry`s.  The
entry list of a directory is the mutually inductive `FsEntries` (readdir
order is the list order). -/
inductive FsNode where
  | file (size : Nat)
  | dir (entries : FsEntries)
  | symlink (target : String)
  | other
/-- A directory entry list, in readdir order. -/
inductive FsEntries where
  | nil
  | cons (name : String) (node : FsNode) (rest : FsEntries)
end

/-- Build a directory entry list from a plain list of named nodes. -/
def FsEntries.ofList : List (String × FsNode) → FsEntries
  | [] => FsEntries.nil
  | (n, t) :: rest => FsEntries.cons n t (FsEntries.ofList rest)

/-- The number of entries (`entries.count()` in the source). -/
def FsEntries.length : FsEntries → Nat
  | FsEntries.nil => 0
  | FsEntries.cons _ _ rest => rest.length + 1

/-- Find the node of the given name in an entry list. -/
def FsEntries.find? : FsEntries → String → Option FsNode
  | FsEntries.nil, _ => none
  | FsEntries.cons name node rest, n =>
    if name == n then some node else FsEntries.find? rest n

/-- Look one name up in a directory node. -/
def FsNode.lookup : FsNode → String → Option FsNode
  | .dir es, n => es.find? n
  | _, _ => none

/-- `Dir::symlink_metadata_optional` on a relative path, resolved component
by component.  Parent components must be plain directories (the concrete
trees in the claims have no symlinked intermediate directories); the final
component's node is returned without following symlinks, just as
`symlink_metadata` does. -/
def resolvePath : FsNode → List String → Option FsNode
  | node, [] => some node
  | node, n :: rest =>
    match node.lookup n with
    | some child => resolvePath child rest
    | none => none

/-- `meta.is_symlink()`. -/
def FsNode.isSymlink : FsNode → Bool
  | .symlink _ => true
  | _ => false

/-- `meta.is_dir()`. -/
def FsNode.isDir : FsNode → Bool
  | .dir _ => true
  | _ => false

/-- `meta.is_file()`. -/
def FsNode.isFile : FsNode → Bool
  | .file _ => true
  | _ => false

/-- `meta.size()` for regular files. -/
def FsNode.size : FsNode → Nat
  | .file s => s
  | _ => 0

/-- `Dir::open_dir_optional`, giving the entry list of the directory at the
path (`none` when the path is absent; opening a non-directory fails, which
the claims' trees never exercise, so it is also mapped to `none`). -/
def openDirOptional (root : FsNode) (p : List String) : Option FsEntries :=
  match resolvePath root p with
  | some (FsNode.dir es) => some es
  | _ => none

/-- Like `openDirOptional` but returning the directory node itself. -/
def openDirNodeOptional (root : FsNode) (p : List String) : Option FsNode :=
  match resolvePath root p with
  | some n => if n.isDir then some n else none
  | none => none

/-- `check_var_run`: `/var/run` present but not a symlink is a fatal bug. -/
def check_var_run (root : FsNode) : LintResult :=
  match resolvePath root ["var", "run"] with
  | some meta =>
    if !meta.isSymlink then lint_err ("Not a symlink: var/run") else lint_ok
  | none => lint_ok

/-- `check_buildah_injected`: an empty `/etc/hostname` or `/etc/resolv.conf`
may have been synthesized by a container runtime. -/
def check_buildah_injected (root : FsNode) : LintResult :=
  let checkOne : String → List String → Option LintError := fun ent p =>
    match resolvePath root p with
    | some meta =>
      if meta.isFile && meta.size == 0 then
        some ⟨"/" ++ ent ++ " is an empty file; this may have been synthesized by a container runtime."⟩
      else none
    | none => none
  match checkOne ("etc/hostname") ["etc", "hostname"] with
  | some e => Except.ok (Except.error e)
  | none =>
    match checkOne ("etc/resolv.conf") ["etc", "resolv.conf"] with
    | some e => Except.ok (Except.error e)
    | none => lint_ok

/-- `check_usretc`: tolerate a missing `/etc`; having both `/etc` and
`/usr/etc` is unsupported. -/
def check_usretc (root : FsNode) : LintResult :=
  let etc_exists := (resolvePath root ["etc"]).isSome
  if !etc_exists then lint_ok
  else if (resolvePath root ["usr", "etc"]).isSome then
    lint_err ("Found /usr/etc - this is a bootc implementation detail and not supported to use in containers")
  else lint_ok

/-- Modelled from the spec: `crate::kargs::get_kargs_in_root(root, ARCH)`,
the boot-argument-file parser (§6; the `kargs` module is not among the
provided sources), a black box that fails with an execution error on
malformed input.  Mirroring the repository's own test (`kargs.d` written
as a regular file makes the lint fail at the outer level), the model
errors when `usr/lib/bootc/kargs.d` exists but is not a directory; the
per-file TOML parsing operates on file contents, which the tree model
does not carry, so a well-formed directory parses successfully. -/
def get_kargs_in_root (root : FsNode) : Except String (List String) :=
  match resolvePath root ["usr", "lib", "bootc", "kargs.d"] with
  | none => Except.ok []
  | some (FsNode.dir _) => Except.ok []
  | some _ => Except.error ("Not a directory: usr/lib/bootc/kargs.d")

/-- `check_parse_kargs`: validate that the `/usr/lib/bootc/kargs.d` files
parse; a parser failure propagates as a runtime error (the `?`), and a
successful parse passes the lint. -/
def check_parse_kargs (root : FsNode) : LintResult :=
  match get_kargs_in_root root with
  | Except.error e => Except.error e
  | Except.ok _ => lint_ok

/-- The names of the subdirectories in an entry list (the candidate kernel
version directories under `usr/lib/modules`). -/
def dirEntryNames : FsEntries → List String
  | FsEntries.nil => []
  | FsEntries.cons n node rest =>
    (if node.isDir then [n] else []) ++ dirEntryNames rest

/-- Modelled from the spec: `ostree_ext::bootabletree::find_kernel_dir_fs`
(§6; `ostree_ext` is outside this repository), the kernel-directory finder
returning zero or one discovered kernel version directory under
`usr/lib/modules` and failing — as the repository's own test exercises —
when more than one is present. -/
def find_kernel_dir_fs (root : FsNode) : Except String (Option String) :=
  match openDirOptional root ["usr", "lib", "modules"] with
  | none => Except.ok none
  | some es =>
    match dirEntryNames es with
    | [] => Except.ok none
    | [k] => Except.ok (some k)
    | _ => Except.error ("Multiple kernel directories found")

/-- `check_kernel`: only one kernel is supported in an image; the finder's
failure on multiple kernels propagates as a runtime error (the `?`). -/
def check_kernel (root : FsNode) : LintResult :=
  match find_kernel_dir_fs root with
  | Except.error e => Except.error e
  | Except.ok _ => lint_ok

/-- `API_DIRS`: <https://systemd.io/API_FILE_SYSTEMS/> with `/var` added. -/
def API_DIRS : List String := ["dev", "proc", "sys", "run", "tmp", "var"]

/-- The loop body of `check_api_dirs` over the remaining directory names. -/
def checkApiDirsLoop (root : FsNode) : List String → LintResult
  | [] => lint_ok
  | d :: rest =>
    match resolvePath root [d] with
    | none => lint_err ("Missing API filesystem base directory: /" ++ d)
    | some meta =>
      if !meta.isDir then
        lint_err ("Expected directory for API filesystem base directory: /" ++ d)
      else checkApiDirsLoop root rest

/-- `check_api_dirs`: every API filesystem base directory exists and is a
directory. -/
def check_api_dirs (root : FsNode) : LintResult := checkApiDirsLoop root API_DIRS

/-- `BASEIMAGE_REF`: embedded default baseimage content path. -/
def BASEIMAGE_REF : List String := ["usr", "share", "doc", "bootc", "baseimage", "base"]

/-- Modelled from the spec: `ostree_prepareroot::CONF_PATH` (`ostree_ext`,
outside this repository), the prepare-root config path used in the
composefs lint's messages and matching the repository's test fixture. -/
def CONF_PATH : String := "usr/lib/ostree/prepare-root.conf"

/-- The path components of `CONF_PATH`. -/
def CONF_PATH_COMPONENTS : List String := ["usr", "lib", "ostree", "prepare-root.conf"]

/-- Modelled from the spec: `ostree_prepareroot::load_config_from_root`
(§6; `ostree_ext` is outside this repository) loads the prepare-root
config, returning `none` when the config file is absent.  The loaded
config is modelled by the file's node. -/
def load_config_from_root (dir : FsNode) : Option FsNode :=
  resolvePath dir CONF_PATH_COMPONENTS

/-- Modelled from the spec: `ostree_prepareroot::overlayfs_enabled_in_config`
(§6; `ostree_ext` is outside this repository) decides whether the loaded
config enables the composefs overlay by parsing its key/value contents.
File contents are not carried by the tree model, so the delegate's verdict
on a present config is modelled as enabled — as in the repository's
passing fixture, whose installed baseimage config enables composefs. -/
def overlayfs_enabled_in_config (_config : FsNode) : Bool := true

/-- `check_prepareroot_composefs_norecurse`: a missing prepare-root config
or one without composefs enabled is a violation. -/
def check_prepareroot_composefs_norecurse (dir : FsNode) : LintResult :=
  match load_config_from_root dir with
  | none => lint_err (CONF_PATH ++ " is not present to enable composefs")
  | some config =>
    if !overlayfs_enabled_in_config config then
      lint_err (CONF_PATH ++ " does not have composefs enabled")
    else lint_ok

/-- `check_composefs`: the prepare-root check on the root, repeated on the
embedded baseimage documentation copy when present. -/
def check_composefs (dir : FsNode) : LintResult :=
  match check_prepareroot_composefs_norecurse dir with
  | Except.error e => Except.error e
  | Except.ok (Except.error e) => Except.ok (Except.error e)
  | Except.ok (Except.ok ()) =>
    match openDirNodeOptional dir BASEIMAGE_REF with
    | some d2 =>
      match check_prepareroot_composefs_norecurse d2 with
      | Except.error e => Except.error e
      | Except.ok (Except.error e) => Except.ok (Except.error e)
      | Except.ok (Except.ok ()) => lint_ok
    | none => lint_ok

/-- `check_baseimage_root_norecurse`: `/sysroot` must be a directory and
`/ostree` a symlink to `sysroot/ostree`. -/
def check_baseimage_root_norecurse (dir : FsNode) : LintResult :=
  match resolvePath dir ["sysroot"] with
  | some meta =>
    if !meta.isDir then lint_err ("Expected a directory for /sysroot")
    else
      match resolvePath dir ["ostree"] with
      | none => lint_err ("Missing ostree -> sysroot/ostree link")
      | some m =>
        if !m.isSymlink then lint_err ("/ostree should be a symlink")
        else
          match m with
          | FsNode.symlink link =>
            if link != "sysroot/ostree" then
              lint_err ("Expected /ostree -> sysroot/ostree, not "
                ++ String.singleton (Char.ofNat 34) ++ link ++ String.singleton (Char.ofNat 34))
            else lint_ok
          | _ => lint_ok
  | none => lint_err ("Missing /sysroot")

/-- `check_baseimage_root`: the root check, repeated on the embedded
baseimage documentation copy when present. -/
def check_baseimage_root (dir : FsNode) : LintResult :=
  match check_baseimage_root_norecurse dir with
  | Except.error e => Except.error e
  | Except.ok (Except.error e) => Except.ok (Except.error e)
  | Except.ok (Except.ok ()) =>
    match openDirNodeOptional dir BASEIMAGE_REF with
    | some d2 =>
      match check_baseimage_root_norecurse d2 with
      | Except.error e => Except.error e
      | Except.ok (Except.error e) => Except.ok (Except.error e)
      | Except.ok (Except.ok ()) => lint_ok
    | none => lint_ok

/-- Byte-order comparison of character lists by scalar value; since UTF-8
encoding preserves code-point order, this is the lexicographic byte order
that Rust's `str::cmp` (used by `sort_by` and the `BTree` collections)
implements. -/
def charListLt : List Char → List Char → Bool
  | [], [] => false
  | [], _ :: _ => true
  | _ :: _, [] => false
  | a :: as, b :: bs =>
    if a.toNat < b.toNat then true
    else if b.toNat < a.toNat then false
    else charListLt as bs

/-- `a < b` on strings in Rust's ordering. -/
def strLt (a b : String) : Bool := charListLt a.data b.data

/-- `a <= b` on strings in Rust's ordering. -/
def strLe (a b : String) : Bool := !strLt b a

/-- Insertion into a `BTreeSet<Utf8PathBuf>` modelled as a sorted,
duplicate-free list of path strings (`Utf8PathBuf` ordering agrees with
plain string ordering on the slash-joined paths used here). -/
def sortedInsertStr (s : String) : List String → List String
  | [] => [s]
  | x :: xs =>
    if strLt s x then s :: x :: xs
    else if s == x then x :: xs
    else x :: sortedInsertStr s xs

mutual
/-- The per-entry body of the `collect_nonempty_regfiles` loop: a regular
file of size > 0 is inserted into the sorted set under its joined path; a
subdirectory is recursed into. -/
def collectNode : FsNode → String → List String → List String
  | FsNode.file sz, p, out => if sz > 0 then sortedInsertStr p out else out
  | FsNode.dir sub, p, out => collectEntries sub p out
  | FsNode.symlink _, _, out => out
  | FsNode.other, _, out => out
/-- `collect_nonempty_regfiles`: walk a directory's entry list, inserting
the path of every non-empty regular file into the sorted set and recursing
into subdirectories. -/
def collectEntries : FsEntries → String → List String → List String
  | FsEntries.nil, _, out => out
  | FsEntries.cons name node rest, path, out =>
    collectEntries rest path (collectNode node (path ++ "/" ++ name) out)
end

/-- `check_varlog`: warn about non-empty regular files under `/var/log`,
naming the first (least) offender and the count of the others. -/
def check_varlog (root : FsNode) : LintResult :=
  match openDirOptional root ["var", "log"] with
  | none => lint_ok
  | some es =>
    match collectEntries es ("/var/log") [] with
    | [] => lint_ok
    | first :: rest =>
      let others := rest.length
      lint_err ("Found non-empty logfile: " ++ first
        ++ (if others > 0 then " (and " ++ toString others ++ " more)" else ""))

/-- Modelled from the spec: `bootc_utils::iterator_split_nonempty_rest_count`
(a repository utility outside the provided sources): `none` for an empty
collection, otherwise the first `n` samples together with the count of the
remaining elements. -/
def iterator_split_nonempty_rest_count (xs : List String) (n : Nat) :
    Option (List String × Nat) :=
  match xs with
  | [] => none
  | _ => some (xs.take n, xs.length - min n xs.length)

/-- The lines written for one sample block: one indented line per sample
and, when elements were truncated, an `...and N more` line. -/
def sampleLines (samples : List String) (rest : Nat) : String :=
  String.join (samples.map (fun e => "  " ++ e ++ "
"))
    ++ (if rest > 0 then "  ...and " ++ toString rest ++ " more" ++ "
" else "")

/-- The result of the tmpfiles-policy analyzer: content in `/var` missing
tmpfiles.d entries, and unsupported (non-directory/non-symlink) files. -/
structure TmpfilesResult where
  tmpfiles : List String
  unsupported : List String

/-- Modelled from the spec: `bootc_tmpfiles::find_missing_tmpfiles_current_root`
(§6; the `bootc_tmpfiles` crate is outside the provided sources) analyzes
the *currently running* root — ambient system state that the tree model
does not carry (the lint ignores its root argument) — so the analyzer's
verdict is modelled as no missing and no unsupported entries. -/
def find_missing_tmpfiles_current_root : Except String TmpfilesResult :=
  Except.ok ⟨[], []⟩

/-- `check_var_tmpfiles`: content in `/var` without corresponding systemd
tmpfiles.d entries is a violation; the message samples up to 5 missing
entries and up to 5 unsupported files per section. -/
def check_var_tmpfiles (_root : FsNode) : LintResult :=
  match find_missing_tmpfiles_current_root with
  | Except.error e => Except.error e
  | Except.ok r =>
    if r.tmpfiles.isEmpty && r.unsupported.isEmpty then lint_ok
    else
      let msg :=
        (match iterator_split_nonempty_rest_count r.tmpfiles 5 with
          | none => ""
          | some (samples, rest) =>
            "Found content in /var missing systemd tmpfiles.d entries:" ++ "
"
              ++ sampleLines samples rest)
        ++ (match iterator_split_nonempty_rest_count r.unsupported 5 with
          | none => ""
          | some (samples, rest) =>
            "Found non-directory/non-symlink files in /var:" ++ "
"
              ++ sampleLines samples rest)
      lint_err msg

/-- The result of the user/group reconciliation analyzer: `/etc/passwd`
users and `/etc/group` groups without sysusers.d entries. -/
structure SysusersAnalysis where
  missing_users : List String
  missing_groups : List String

/-- `is_empty` on the analysis. -/
def SysusersAnalysis.is_empty (r : SysusersAnalysis) : Bool :=
  r.missing_users.isEmpty && r.missing_groups.isEmpty

/-- Modelled from the spec: `bootc_sysusers::analyze` (§6; the
`bootc_sysusers` crate is outside the provided sources) reconciles
`/etc/passwd` and `/etc/group` against `/usr/lib/sysusers.d` — all decided
by file *contents*, which the tree model does not carry — so the
analyzer's verdict is modelled as no missing users or groups. -/
def sysusers_analyze (_rootfs : FsNode) : Except String SysusersAnalysis :=
  Except.ok ⟨[], []⟩

/-- `check_sysusers`: users or groups without corresponding systemd
sysusers.d entries are a violation; the message samples up to 5 missing
users and up to 5 missing groups. -/
def check_sysusers (rootfs : FsNode) : LintResult :=
  match sysusers_analyze rootfs with
  | Except.error e => Except.error e
  | Except.ok r =>
    if r.is_empty then lint_ok
    else
      let msg :=
        (match iterator_split_nonempty_rest_count r.missing_users 5 with
          | none => ""
          | some (samples, rest) =>
            "Found /etc/passwd entry without corresponding systemd sysusers.d:" ++ "
"
              ++ sampleLines samples rest)
        ++ (match iterator_split_nonempty_rest_count r.missing_groups 5 with
          | none => ""
          | some (samples, rest) =>
            "Found /etc/group entry without corresponding systemd sysusers.d:" ++ "
"
              ++ sampleLines samples rest)
      lint_err msg

/-- `check_boot`: `/boot` should be present but empty. -/
def check_boot (root : FsNode) : LintResult :=
  match openDirOptional root ["boot"] with
  | none => lint_err ("Missing /boot directory")
  | some es =>
    match es with
    | FsEntries.nil => lint_ok
    | FsEntries.cons first _ rest =>
      let others := rest.length
      lint_err ("Found non-empty /boot: "
        ++ String.singleton (Char.ofNat 34) ++ first ++ String.singleton (Char.ofNat 34)
        ++ (if others > 0 then " (and " ++ toString others ++ " more)" else ""))

/-- `LintFnTy`: a lint either operates as it pleases on a target root
(`Regular`) or is invoked per visited node of the shared walk
(`Recursive`). -/
inductive LintFnTy where
  | Regular (f : FsNode → LintResult)
  | Recursive (f : WalkEntry → LintResult)

/-- A lint rule (`struct Lint`): unique name, severity, check shape, and an
optional restriction to one root type. -/
structure Lint where
  name : String
  ty : LintType
  f : LintFnTy
  root_type : Option RootType

/-- `matches!(lint.f, LintFnTy::Regular(_))`. -/
def Lint.isRegular (l : Lint) : Bool :=
  match l.f with
  | LintFnTy.Regular _ => true
  | LintFnTy.Recursive _ => false

/-- `Lint::new_fatal`. -/
def Lint.new_fatal (name : String) (f : FsNode → LintResult) : Lint :=
  ⟨name, LintType.Fatal, LintFnTy.Regular f, none⟩

/-- `Lint::new_warning`. -/
def Lint.new_warning (name : String) (f : FsNode → LintResult) : Lint :=
  ⟨name, LintType.Warning, LintFnTy.Regular f, none⟩

/-- `Lint::set_root_type`. -/
def Lint.set_root_type (l : Lint) (v : RootType) : Lint :=
  { l with root_type := some v }

def LINT_VAR_RUN : Lint := Lint.new_fatal ("var-run") check_var_run

def LINT_BUILDAH_INJECTED : Lint :=
  (Lint.new_warning ("buildah-injected") check_buildah_injected).set_root_type RootType.Alternative

def LINT_ETC_USRUSETC : Lint := Lint.new_fatal ("etc-usretc") check_usretc

def LINT_KARGS : Lint := Lint.new_fatal ("bootc-kargs") check_parse_kargs

def LINT_KERNEL : Lint := Lint.new_fatal ("kernel") check_kernel

def LINT_UTF8 : Lint := ⟨"utf8", LintType.Fatal, LintFnTy.Recursive check_utf8, none⟩

def LINT_API_DIRS : Lint := Lint.new_fatal ("api-base-directories") check_api_dirs

def LINT_COMPOSEFS : Lint := Lint.new_warning ("baseimage-composefs") check_composefs

def LINT_BASEIMAGE_ROOT : Lint := Lint.new_fatal ("baseimage-root") check_baseimage_root

def LINT_VARLOG : Lint := Lint.new_warning ("var-log") check_varlog

def LINT_VAR_TMPFILES : Lint :=
  (Lint.new_warning ("var-tmpfiles") check_var_tmpfiles).set_root_type RootType.Running

def LINT_SYSUSERS : Lint := Lint.new_warning ("sysusers") check_sysusers

def LINT_NONEMPTY_BOOT : Lint := Lint.new_warning ("nonempty-boot") check_boot

/-- The `#[distributed_slice] LINTS` registry, in the registration order of
the source file. -/
def LINTS : List Lint :=
  [LINT_VAR_RUN, LINT_BUILDAH_INJECTED, LINT_ETC_USRUSETC, LINT_KARGS, LINT_KERNEL,
   LINT_UTF8, LINT_API_DIRS, LINT_COMPOSEFS, LINT_BASEIMAGE_ROOT, LINT_VARLOG,
   LINT_VAR_TMPFILES, LINT_SYSUSERS, LINT_NONEMPTY_BOOT]

/-- The partition predicate of `lint_inner`: a lint is applicable (not
skipped) when its name is not in the skip set and its root-type
restriction, if any, matches the run's root type. -/
def lintPred (skip : List String) (rt : RootType) (l : Lint) : Bool :=
  if skip.contains l.name then false
  else
    match l.root_type with
    | some lint_rt => if lint_rt != rt then false else true
    | none => true

/-- Insert a lint into a name-sorted list (`sort_by(|a, b| a.name.cmp(b.name))`
is modelled by insertion sort, which is stable like Rust's `sort_by`). -/
def insertByName (l : Lint) : List Lint → List Lint
  | [] => [l]
  | x :: xs => if strLe l.name x.name then l :: x :: xs else x :: insertByName l xs

/-- Sort the applicable lints into canonical name order. -/
def sortByName : List Lint → List Lint
  | [] => []
  | x :: xs => insertByName x (sortByName xs)

/-- `BTreeSet<&Lint>::insert` on a name-sorted duplicate-free list: lint
equality is name equality (`impl PartialEq for Lint`), and an equal element
already present is kept. -/
def btreeInsert (l : Lint) : List Lint → List Lint
  | [] => [l]
  | x :: xs =>
    if strLt l.name x.name then l :: x :: xs
    else if l.name == x.name then x :: xs
    else x :: btreeInsert l xs

/-- `BTreeSet::from_iter`. -/
def btreeOfList (ls : List Lint) : List Lint :=
  ls.foldl (fun s l => btreeInsert l s) []

/-- `BTreeMap<&Lint, LintResult>::insert` on a name-sorted association list:
a new binding is inserted in order; for an existing key the value is
replaced (and the stored key kept, as `BTreeMap` does). -/
def mapInsert : List (Lint × LintResult) → Lint → LintResult → List (Lint × LintResult)
  | [], l, o => [(l, o)]
  | (x, v) :: xs, l, o =>
    if strLt l.name x.name then (l, o) :: (x, v) :: xs
    else if l.name == x.name then (x, o) :: xs
    else (x, v) :: mapInsert xs l o

/-- `BTreeSet::remove` by lint identity (name): removes the element with
that name. -/
def setRemove (s : List Lint) (n : String) : List Lint :=
  s.filter (fun x => !(x.name == n))

/-- Run a recursive lint's function on one entry; the `Regular` branch is
unreachable in the engine (the recursive set only holds recursive lints). -/
def runRecursive (l : Lint) (e : WalkEntry) : LintResult :=
  match l.f with
  | LintFnTy.Recursive f => f e
  | LintFnTy.Regular _ => lint_ok

/-- Run a regular lint's function on the root; the `Recursive` branch is
unreachable in the engine. -/
def runRegular (root : FsNode) (l : Lint) : LintResult :=
  match l.f with
  | LintFnTy.Regular f => f root
  | LintFnTy.Recursive _ => lint_ok

/-- `ControlFlow` of the walk callback. -/
inductive WalkFlow where
  | brk
  | cont
deriving DecidableEq, Repr

/-- The mutable state of the multiplexed walk: the still-active recursive
lints (`recursive_lints : BTreeSet`) and the caught first errors
(`recursive_errors : BTreeMap`). -/
structure WalkState where
  active : List Lint
  errors : List (Lint × LintResult)

/-- The removal loop at the end of one callback invocation: for each
recursive lint that errored on this entry, remove it from the active set
and record its outcome in the error map. -/
def applyErrors (st : WalkState) (errs : List (Lint × LintResult)) : WalkState :=
  errs.foldl (fun st2 p => ⟨setRemove st2.active p.1.name, mapInsert st2.errors p.1 p.2⟩) st

/-- The per-lint test of one callback invocation: run the recursive lint on
the entry and keep the outcome when it is anything but ok. -/
def iterTest (e : WalkEntry) (l : Lint) : Option (Lint × LintResult) :=
  match runRecursive l e with
  | Except.ok (Except.ok ()) => none
  | o => some (l, o)

/-- The per-entry outcome capture of the callback: every still-active lint
is called on the entry, and those that returned anything but ok are kept
with their outcome (`this_iteration_errors`). -/
def iterationErrors (active : List Lint) (e : WalkEntry) : List (Lint × LintResult) :=
  active.filterMap (iterTest e)

/-- One invocation of the walk callback of `lint_inner`: break immediately
when no recursive lint remains; otherwise call every still-active lint on
this entry, then remove each lint that returned anything but ok from the
active set and record its outcome. -/
def lintWalkCallback (st : WalkState) (e : WalkEntry) : WalkFlow × WalkState :=
  if st.active.isEmpty then (WalkFlow.brk, st)
  else (WalkFlow.cont, applyErrors st (iterationErrors st.active e))

/-- Drive the walk callback over the sequence of visited entries, stopping
early on `Break`. -/
def runWalk (st : WalkState) : List WalkEntry → WalkState
  | [] => st
  | e :: rest =>
    match lintWalkCallback st e with
    | (WalkFlow.brk, st2) => st2
    | (WalkFlow.cont, st2) => runWalk st2 rest

/-- The canonical name-sorted list of applicable lints for a run. -/
def applicableSorted (lints : List Lint) (rt : RootType) (skip : List String) : List Lint :=
  sortByName (lints.filter (lintPred skip rt))

/-- The per-rule outcome list of `lint_inner` built from the sorted
applicable lints: regular lints run against the root in order, then the
recursive-lint errors (in `BTreeMap` order), then every recursive lint that
survived the walk, deemed passed. -/
def lintResultsFromSorted (sorted : List Lint) (root : FsNode) (entries : List WalkEntry) :
    List (Lint × LintResult) :=
  let nonrecs := sorted.filter (fun l => l.isRegular)
  let recs := sorted.filter (fun l => !l.isRegular)
  let regResults := nonrecs.map (fun l => (l, runRegular root l))
  let final := runWalk ⟨btreeOfList recs, []⟩ entries
  regResults ++ final.errors ++ final.active.map (fun l => (l, lint_ok))

/-- The per-rule outcome list of a `lint_inner` run. -/
def lintInnerResults (lints : List Lint) (rt : RootType) (skip : List String)
    (root : FsNode) (entries : List WalkEntry) : List (Lint × LintResult) :=
  lintResultsFromSorted (applicableSorted lints rt skip) root entries

/-- `skipped = skipped_lints.len()`: the number of registered lints filtered
out before execution. -/
def skippedCount (lints : List Lint) (rt : RootType) (skip : List String) : Nat :=
  (lints.filter (fun l => !lintPred skip rt l)).length

/-- The aggregate counts of one run (`struct LintExecutionResult`). -/
structure LintExecutionResult where
  warnings : Nat
  passed : Nat
  skipped : Nat
  fatal : Nat
deriving DecidableEq, Repr

/-- The result-merging loop of `lint_inner`: for each rule in order, a
runtime error aborts the run naming the offending lint; a violation writes
one transcript line and bumps the fatal or warning tally by severity; an ok
outcome is counted as passed.  Returns the transcript lines written before
any abort, plus `(passed, warnings, fatal)`. -/
def processResults : List (Lint × LintResult) → List String × Except String (Nat × Nat × Nat)
  | [] => ([], Except.ok (0, 0, 0))
  | (l, r) :: rest =>
    match r with
    | Except.error e =>
      ([], Except.error ("Unexpected runtime error running lint " ++ l.name ++ ": " ++ e))
    | Except.ok (Except.error le) =>
      let pr := processResults rest
      match l.ty with
      | LintType.Fatal =>
        (("Failed lint: " ++ l.name ++ ": " ++ le.msg) :: pr.1,
         pr.2.map (fun t => (t.1, t.2.1, t.2.2 + 1)))
      | LintType.Warning =>
        (("Lint warning: " ++ l.name ++ ": " ++ le.msg) :: pr.1,
         pr.2.map (fun t => (t.1, t.2.1 + 1, t.2.2)))
    | Except.ok (Except.ok ()) =>
      let pr := processResults rest
      (pr.1, pr.2.map (fun t => (t.1 + 1, t.2.1, t.2.2)))

/-- `lint_inner`: filter and sort the registry, run the regular lints, run
the multiplexed walk, merge all outcomes and tally them.  Returns the
transcript written to the output sink and either the execution tally or the
aborting runtime error. -/
def lint_inner (lints : List Lint) (rt : RootType) (skip : List String)
    (root : FsNode) (entries : List WalkEntry) :
    List String × Except String LintExecutionResult :=
  let pr := processResults (lintInnerResults lints rt skip root entries)
  (pr.1, pr.2.map (fun t => ⟨t.2.1, t.1, skippedCount lints rt skip, t.2.2⟩))

/-- The effective fatal count used for the verdict: `fatal` alone, or
`fatal + warnings` under `FatalWarnings`. -/
def effectiveFatal (wd : WarningDisposition) (r : LintExecutionResult) : Nat :=
  match wd with
  | WarningDisposition.FatalWarnings => r.fatal + r.warnings
  | WarningDisposition.AllowWarnings => r.fatal

/-- `lint`: run `lint_inner`, append the summary lines to the transcript,
and fail with `Checks failed: N` when the effective fatal count is
nonzero. -/
def lint (lints : List Lint) (warning_disposition : WarningDisposition) (rt : RootType)
    (skip : List String) (root : FsNode) (entries : List WalkEntry) :
    List String × Except String Unit :=
  match lint_inner lints rt skip root entries with
  | (lines, Except.error e) => (lines, Except.error e)
  | (lines, Except.ok r) =>
    let lines2 := lines ++ ["Checks passed: " ++ toString r.passed]
    let lines3 := lines2 ++ (if r.skipped > 0 then ["Checks skipped: " ++ toString r.skipped] else [])
    let fatal := effectiveFatal warning_disposition r
    let lines4 := lines3 ++ (if r.warnings > 0 then ["Warnings: " ++ toString r.warnings] else [])
    if fatal > 0 then (lines4, Except.error ("Checks failed: " ++ toString fatal))
    else (lines4, Except.ok ())

/-- Specification-side description of the first-failure-wins policy: the
outcome attributed to a per-node rule is its outcome on the first visited
entry where it does not return ok, and `lint_ok` if that never happens. -/
def specFirstFailure (l : Lint) : List WalkEntry → LintResult
  | [] => lint_ok
  | e :: rest =>
    match runRecursive l e with
    | Except.ok (Except.ok ()) => specFirstFailure l rest
    | o => o

/-- The first non-ok outcome of a rule over the visited entries, if any. -/
def firstFailureOpt (l : Lint) : List WalkEntry → Option LintResult
  | [] => none
  | e :: rest =>
    match runRecursive l e with
    | Except.ok (Except.ok ()) => firstFailureOpt l rest
    | o => some o

/-- Specification-side root-type mismatch: the rule's applicability is set
and differs from the run's root-type tag. -/
def rootTypeMismatch (l : Lint) (rt : RootType) : Bool :=
  match l.root_type with
  | some r => r != rt
  | none => false

/-- The lints of the given name in the active set (proof-layer view). -/
def activeFor (st : WalkState) (n : String) : List Lint :=
  st.active.filter (fun x => x.name == n)

/-- The recorded errors of the given name (proof-layer view). -/
def errorsFor (st : WalkState) (n : String) : List (Lint × LintResult) :=
  st.errors.filter (fun p => p.1.name == n)

/-- The transcript line written for one violation, by severity. -/
def violationLine (l : Lint) (le : LintError) : String :=
  match l.ty with
  | LintType.Fatal => "Failed lint: " ++ l.name ++ ": " ++ le.msg
  | LintType.Warning => "Lint warning: " ++ l.name ++ ": " ++ le.msg

/-- The transcript lines of a result list: one line per violation, in
order. -/
def violationLines (rs : List (Lint × LintResult)) : List String :=
  rs.filterMap (fun p =>
    match p.2 with
    | Except.ok (Except.error le) => some (violationLine p.1 le)
    | _ => none)

/-- A concrete walk entry with a raw non-UTF-8 name (`bad\xFF` at the
root), for witnesses. -/
def badEntry1 : WalkEntry :=
  ⟨[[98, 97, 100, 255]], [98, 97, 100, 255], FileType.file, Except.ok []⟩

/-- A second, independent walk entry with a raw non-UTF-8 name
(`bad\xFE`), for witnesses. -/
def badEntry2 : WalkEntry :=
  ⟨[[98, 97, 100, 254]], [98, 97, 100, 254], FileType.file, Except.ok []⟩

/-- A symlink walk entry `/sub/lnk` with a valid name but a non-UTF-8 link
target, for witnesses. -/
def badLinkEntry : WalkEntry :=
  ⟨[[115, 117, 98], [108, 110, 107]], [108, 110, 107], FileType.symlink, Except.ok [255]⟩

/-! ### Sorting and set-construction lemmas -/

theorem char_eq_of_toNat_eq (a b : Char) (h : a.toNat = b.toNat) : a = b := by
  cases a
  cases b
  simp only [Char.toNat] at h
  congr 1
  exact UInt32.toNat.inj h

theorem charListLt_irrefl : ∀ x : List Char, charListLt x x = false := by
  intro x
  induction x with
  | nil => rfl
  | cons a as ih =>
    unfold charListLt
    rw [if_neg (lt_irrefl a.toNat), if_neg (lt_irrefl a.toNat)]
    exact ih

theorem charListLt_asymm :
    ∀ x y : List Char, charListLt x y = true → charListLt y x = false := by
  intro x
  induction x with
  | nil =>
    intro y h
    cases y with
    | nil => exact absurd h (by simp [charListLt])
    | cons b bs => rfl
  | cons a as ih =>
    intro y h
    cases y with
    | nil => exact absurd h (by simp [charListLt])
    | cons b bs =>
      unfold charListLt at h ⊢
      by_cases hab : a.toNat < b.toNat
      · rw [if_neg (by omega), if_pos hab]
      · rw [if_neg hab] at h
        by_cases hba : b.toNat < a.toNat
        · rw [if_pos hba] at h
          exact absurd h (by simp)
        · rw [if_neg hba] at h
          rw [if_neg hba, if_neg hab]
          exact ih bs h

theorem charListLt_trans :
    ∀ x y z : List Char, charListLt x y = true → charListLt y z = true →
      charListLt x z = true := by
  intro x
  induction x with
  | nil =>
    intro y z h1 h2
    cases y with
    | nil => exact absurd h1 (by simp [charListLt])
    | cons b bs =>
      cases z with
      | nil => exact absurd h2 (by simp [charListLt])
      | cons c cs => rfl
  | cons a as ih =>
    intro y z h1 h2
    cases y with
    | nil => exact absurd h1 (by simp [charListLt])
    | cons b bs =>
      cases z with
      | nil => exact absurd h2 (by simp [charListLt])
      | cons c cs =>
        unfold charListLt at h1 h2 ⊢
        by_cases hab : a.toNat < b.toNat
        · by_cases hbc : b.toNat < c.toNat
          · rw [if_pos (by omega)]
          · rw [if_neg hbc] at h2
            by_cases hcb : c.toNat < b.toNat
            · rw [if_pos hcb] at h2
              exact absurd h2 (by simp)
            · rw [if_pos (by omega)]
        · rw [if_neg hab] at h1
          by_cases hba : b.toNat < a.toNat
          · rw [if_pos hba] at h1
            exact absurd h1 (by simp)
          · rw [if_neg hba] at h1
            by_cases hbc : b.toNat < c.toNat
            · rw [if_pos (by omega)]
            · rw [if_neg hbc] at h2
              by_cases hcb : c.toNat < b.toNat
              · rw [if_pos hcb] at h2
                exact absurd h2 (by simp)
              · rw [if_neg hcb] at h2
                rw [if_neg (by omega), if_neg (by omega)]
                exact ih bs cs h1 h2

theorem charListLt_connex :
    ∀ x y : List Char, charListLt x y = false → charListLt y x = false → x = y := by
  intro x
  induction x with
  | nil =>
    intro y h1 _
    cases y with
    | nil => rfl
    | cons b bs => exact absurd h1 (by simp [charListLt])
  | cons a as ih =>
    intro y h1 h2
    cases y with
    | nil => exact absurd h2 (by simp [charListLt])
    | cons b bs =>
      unfold charListLt at h1 h2
      by_cases hab : a.toNat < b.toNat
      · rw [if_pos hab] at h1
        exact absurd h1 (by simp)
      · rw [if_neg hab] at h1
        by_cases hba : b.toNat < a.toNat
        · rw [if_pos hba] at h2
          exact absurd h2 (by simp)
        · rw [if_neg hba] at h1
          rw [if_neg hba, if_neg hab] at h2
          have hchar : a = b := char_eq_of_toNat_eq a b (by omega)
          rw [hchar, ih bs h1 h2]

theorem str_eq_of_data_eq (a b : String) (h : a.data = b.data) : a = b := by
  cases a
  cases b
  simp_all

theorem strLt_irrefl (a : String) : strLt a a = false := charListLt_irrefl a.data

theorem strLt_asymm {a b : String} (h : strLt a b = true) : strLt b a = false :=
  charListLt_asymm a.data b.data h

theorem strLt_trans {a b c : String} (h1 : strLt a b = true) (h2 : strLt b c = true) :
    strLt a c = true :=
  charListLt_trans a.data b.data c.data h1 h2

theorem strLt_connex {a b : String} (h1 : strLt a b = false) (h2 : strLt b a = false) :
    a = b :=
  str_eq_of_data_eq a b (charListLt_connex a.data b.data h1 h2)

theorem strLt_ne {a b : String} (h : strLt a b = true) : a ≠ b := by
  intro hc
  subst hc
  rw [strLt_irrefl] at h
  exact Bool.false_ne_true h

theorem strLe_of_not_le {a b : String} (h : ¬strLe a b = true) : strLe b a = true := by
  unfold strLe at h ⊢
  have h2 : strLt b a = true := by
    revert h
    cases strLt b a <;> simp
  rw [strLt_asymm h2]
  rfl

theorem strLe_trans {a b c : String} (h1 : strLe a b = true) (h2 : strLe b c = true) :
    strLe a c = true := by
  unfold strLe at h1 h2 ⊢
  rw [Bool.not_eq_eq_eq_not, Bool.not_true] at h1 h2 ⊢
  by_cases hca : strLt c a = true
  · by_cases hab : strLt a b = true
    · rw [strLt_trans hca hab] at h2
      exact absurd h2 (by simp)
    · rw [Bool.not_eq_true] at hab
      have : a = b := strLt_connex hab h1
      subst this
      exact h2
  · exact Bool.eq_false_iff.mpr hca

theorem strLt_of_le_of_ne {a b : String} (h1 : strLe a b = true) (h2 : a ≠ b) :
    strLt a b = true := by
  unfold strLe at h1
  rw [Bool.not_eq_eq_eq_not, Bool.not_true] at h1
  by_cases hab : strLt a b = true
  · exact hab
  · rw [Bool.not_eq_true] at hab
    exact absurd (strLt_connex hab h1) h2

theorem insertByName_perm (l : Lint) (xs : List Lint) :
    (insertByName l xs).Perm (l :: xs) := by
  induction xs with
  | nil => exact List.Perm.refl _
  | cons x xs ih =>
    unfold insertByName
    by_cases h : strLe l.name x.name = true
    · rw [if_pos h]
    · rw [if_neg h]
      exact List.Perm.trans (List.Perm.cons x ih) (List.Perm.swap l x xs)

theorem sortByName_perm (xs : List Lint) : (sortByName xs).Perm xs := by
  induction xs with
  | nil => exact List.Perm.refl _
  | cons x xs ih =>
    exact List.Perm.trans (insertByName_perm x (sortByName xs)) (List.Perm.cons x ih)

theorem insertByName_sorted (l : Lint) (xs : List Lint)
    (h : xs.Pairwise (fun a b => strLe a.name b.name = true)) :
    (insertByName l xs).Pairwise (fun a b => strLe a.name b.name = true) := by
  induction xs with
  | nil => simp [insertByName]
  | cons x xs ih =>
    rcases List.pairwise_cons.mp h with ⟨hx, hxs⟩
    unfold insertByName
    by_cases hle : strLe l.name x.name = true
    · rw [if_pos hle]
      refine List.pairwise_cons.mpr ⟨?_, h⟩
      intro b hb
      rcases List.mem_cons.mp hb with rfl | hb
      · exact hle
      · exact strLe_trans hle (hx b hb)
    · rw [if_neg hle]
      refine List.pairwise_cons.mpr ⟨?_, ih hxs⟩
      intro b hb
      have hb2 : b ∈ l :: xs := (insertByName_perm l xs).mem_iff.mp hb
      rcases List.mem_cons.mp hb2 with rfl | hb2
      · exact strLe_of_not_le hle
      · exact hx b hb2

theorem sortByName_sorted (xs : List Lint) :
    (sortByName xs).Pairwise (fun a b => strLe a.name b.name = true) := by
  induction xs with
  | nil => simp [sortByName]
  | cons x xs ih => exact insertByName_sorted x (sortByName xs) ih

theorem sorted_strict_perm_eq :
    ∀ {l1 l2 : List Lint}, l1.Perm l2 →
      l1.Pairwise (fun a b => strLt a.name b.name = true) →
      l2.Pairwise (fun a b => strLt a.name b.name = true) → l1 = l2 := by
  intro l1
  induction l1 with
  | nil =>
    intro l2 hp _ _
    exact (List.Perm.eq_nil hp.symm).symm
  | cons a t1 ih =>
    intro l2 hp h1 h2
    cases l2 with
    | nil => exact absurd (List.Perm.eq_nil hp) (by simp)
    | cons b t2 =>
      have hab : a = b := by
        have ha2 : a ∈ b :: t2 := hp.mem_iff.mp (List.mem_cons_self a t1)
        have hb1 : b ∈ a :: t1 := hp.symm.mem_iff.mp (List.mem_cons_self b t2)
        rcases List.mem_cons.mp ha2 with rfl | ha2
        · rfl
        · rcases List.mem_cons.mp hb1 with h | hb1
          · exact h.symm
          · have hba : strLt b.name a.name = true := List.rel_of_pairwise_cons h2 ha2
            have hab : strLt a.name b.name = true := List.rel_of_pairwise_cons h1 hb1
            have := strLt_trans hab hba
            rw [strLt_irrefl] at this
            exact (Bool.false_ne_true this).elim
      subst hab
      have := ih hp.cons_inv (List.pairwise_cons.mp h1).2 (List.pairwise_cons.mp h2).2
      rw [this]

theorem strict_of_sorted_nodup (xs : List Lint)
    (hs : xs.Pairwise (fun a b => strLe a.name b.name = true))
    (hn : (xs.map (fun l => l.name)).Nodup) :
    xs.Pairwise (fun a b => strLt a.name b.name = true) := by
  have hne : xs.Pairwise (fun a b => a.name ≠ b.name) :=
    (List.pairwise_map.mp hn)
  exact (hs.and hne).imp (fun h => strLt_of_le_of_ne h.1 h.2)

theorem sortByName_eq_of_perm {A B : List Lint} (h : A.Perm B)
    (hn : (A.map (fun l => l.name)).Nodup) :
    sortByName A = sortByName B := by
  have hnB : (B.map (fun l => l.name)).Nodup := (h.map (fun l => l.name)).nodup_iff.mp hn
  have hnA2 : ((sortByName A).map (fun l => l.name)).Nodup :=
    (((sortByName_perm A).map (fun l => l.name)).nodup_iff).mpr hn
  have hnB2 : ((sortByName B).map (fun l => l.name)).Nodup :=
    (((sortByName_perm B).map (fun l => l.name)).nodup_iff).mpr hnB
  exact sorted_strict_perm_eq
    (((sortByName_perm A).trans h).trans (sortByName_perm B).symm)
    (strict_of_sorted_nodup _ (sortByName_sorted A) hnA2)
    (strict_of_sorted_nodup _ (sortByName_sorted B) hnB2)

theorem btreeInsert_append (l : Lint) :
    ∀ s : List Lint, (∀ x ∈ s, strLt x.name l.name = true) → btreeInsert l s = s ++ [l] := by
  intro s
  induction s with
  | nil => intro _; rfl
  | cons x xs ih =>
    intro h
    have hx : strLt x.name l.name = true := h x (List.mem_cons_self x xs)
    unfold btreeInsert
    rw [if_neg (by rw [strLt_asymm hx]; exact Bool.false_ne_true),
      if_neg (by simp only [beq_iff_eq]; exact Ne.symm (strLt_ne hx)),
      ih (fun y hy => h y (List.mem_cons_of_mem x hy))]
    rfl

theorem btreeOfList_aux :
    ∀ (ls s : List Lint), (s ++ ls).Pairwise (fun a b => strLt a.name b.name = true) →
      ls.foldl (fun acc l => btreeInsert l acc) s = s ++ ls := by
  intro ls
  induction ls with
  | nil => intro s _; simp
  | cons a ls ih =>
    intro s h
    have hlt : ∀ x ∈ s, strLt x.name a.name = true := by
      intro x hx
      exact (List.pairwise_append.mp h).2.2 x hx a (List.mem_cons_self a ls)
    have step : btreeInsert a s = s ++ [a] := btreeInsert_append a s hlt
    have h2 : ((s ++ [a]) ++ ls).Pairwise (fun a b => strLt a.name b.name = true) := by
      have : (s ++ [a]) ++ ls = s ++ a :: ls := by simp
      rw [this]; exact h
    calc (a :: ls).foldl (fun acc l => btreeInsert l acc) s
        = ls.foldl (fun acc l => btreeInsert l acc) (btreeInsert a s) := rfl
      _ = ls.foldl (fun acc l => btreeInsert l acc) (s ++ [a]) := by rw [step]
      _ = (s ++ [a]) ++ ls := ih (s ++ [a]) h2
      _ = s ++ a :: ls := by simp

theorem btreeOfList_sorted_id (ls : List Lint)
    (h : ls.Pairwise (fun a b => strLt a.name b.name = true)) : btreeOfList ls = ls := by
  have := btreeOfList_aux ls [] (by simpa using h)
  simpa [btreeOfList] using this

theorem btreeInsert_mem {x l : Lint} :
    ∀ {s : List Lint}, x ∈ btreeInsert l s → x = l ∨ x ∈ s := by
  intro s
  induction s with
  | nil => intro h; simpa [btreeInsert] using h
  | cons y ys ih =>
    intro h
    unfold btreeInsert at h
    by_cases h1 : strLt l.name y.name = true
    · rw [if_pos h1] at h
      rcases List.mem_cons.mp h with rfl | h
      · exact Or.inl rfl
      · exact Or.inr h
    · rw [if_neg h1] at h
      by_cases h2 : (l.name == y.name) = true
      · rw [if_pos h2] at h
        exact Or.inr h
      · rw [if_neg h2] at h
        rcases List.mem_cons.mp h with rfl | h
        · exact Or.inr (List.mem_cons_self _ _)
        · rcases ih h with h | h
          · exact Or.inl h
          · exact Or.inr (List.mem_cons_of_mem y h)

theorem btreeOfList_subset {x : Lint} :
    ∀ {ls : List Lint}, x ∈ btreeOfList ls → x ∈ ls := by
  suffices h : ∀ (ls acc : List Lint),
      x ∈ ls.foldl (fun acc l => btreeInsert l acc) acc → x ∈ acc ∨ x ∈ ls by
    intro ls hx
    rcases h ls [] hx with h2 | h2
    · exact absurd h2 (List.not_mem_nil x)
    · exact h2
  intro ls
  induction ls with
  | nil => intro acc h; exact Or.inl h
  | cons a ls ih =>
    intro acc h
    rcases ih (btreeInsert a acc) h with h2 | h2
    · rcases btreeInsert_mem h2 with rfl | h3
      · exact Or.inr (List.mem_cons_self _ _)
      · exact Or.inl h3
    · exact Or.inr (List.mem_cons_of_mem a h2)

/-! ### Per-name tracking through the multiplexed walk -/

theorem iterTest_fst (e : WalkEntry) (x : Lint) (p : Lint × LintResult)
    (h : iterTest e x = some p) : p.1 = x := by
  revert h
  unfold iterTest
  cases hr : runRecursive x e with
  | error s => intro h; cases h; rfl
  | ok a =>
    cases a with
    | error le => intro h; cases h; rfl
    | ok u => cases u; intro h; cases h

theorem iterTest_ok (e : WalkEntry) (l : Lint)
    (h : runRecursive l e = Except.ok (Except.ok ())) : iterTest e l = none := by
  unfold iterTest
  rw [h]

theorem iterTest_fail (e : WalkEntry) (l : Lint)
    (h : runRecursive l e ≠ Except.ok (Except.ok ())) :
    iterTest e l = some (l, runRecursive l e) := by
  unfold iterTest
  cases hr : runRecursive l e with
  | error s => rfl
  | ok a =>
    cases a with
    | error le => rfl
    | ok u => cases u; exact absurd hr h

theorem iterationErrors_fst_mem (active : List Lint) (e : WalkEntry)
    (p : Lint × LintResult) (h : p ∈ iterationErrors active e) : p.1 ∈ active := by
  rcases List.mem_filterMap.mp h with ⟨a, ha, hpa⟩
  rw [iterTest_fst e a p hpa]
  exact ha

theorem filterMap_fst_filter (e : WalkEntry) (n : String) :
    ∀ xs : List Lint,
      (xs.filterMap (iterTest e)).filter (fun p => p.1.name == n)
        = (xs.filter (fun x => x.name == n)).filterMap (iterTest e) := by
  intro xs
  induction xs with
  | nil => rfl
  | cons x xs ih =>
    rw [List.filterMap_cons, List.filter_cons]
    cases hfx : iterTest e x with
    | none =>
      by_cases hn : (x.name == n) = true
      · simp only [hn, if_true, List.filterMap_cons, hfx]
        exact ih
      · simp only [hn, if_false, Bool.false_eq_true, ite_false]
        exact ih
    | some p =>
      have hpx : p.1 = x := iterTest_fst e x p hfx
      rw [List.filter_cons]
      by_cases hn : (x.name == n) = true
      · simp only [hpx, hn, if_true, List.filterMap_cons, hfx]
        rw [ih]
      · simp only [hpx, hn, Bool.false_eq_true, ite_false]
        exact ih

theorem iterationErrors_filter (active : List Lint) (e : WalkEntry) (n : String) :
    (iterationErrors active e).filter (fun p => p.1.name == n)
      = iterationErrors (active.filter (fun x => x.name == n)) e :=
  filterMap_fst_filter e n active

theorem iterationErrors_singleton_ok (l : Lint) (e : WalkEntry)
    (h : runRecursive l e = Except.ok (Except.ok ())) :
    iterationErrors [l] e = [] := by
  unfold iterationErrors
  rw [List.filterMap_cons, iterTest_ok e l h]
  rfl

theorem iterationErrors_singleton_fail (l : Lint) (e : WalkEntry)
    (h : runRecursive l e ≠ Except.ok (Except.ok ())) :
    iterationErrors [l] e = [(l, runRecursive l e)] := by
  unfold iterationErrors
  rw [List.filterMap_cons, iterTest_fail e l h]
  rfl

theorem setRemove_filter_ne (s : List Lint) (n m : String) (h : m ≠ n) :
    (setRemove s n).filter (fun x => x.name == m) = s.filter (fun x => x.name == m) := by
  induction s with
  | nil => rfl
  | cons x xs ih =>
    unfold setRemove at ih ⊢
    rw [List.filter_cons, List.filter_cons]
    by_cases hxn : (x.name == n) = true
    · have hxm : (x.name == m) = false := by
        simp only [beq_eq_false_iff_ne]
        intro hc
        exact h (hc.symm.trans (beq_iff_eq.mp hxn))
      simp only [hxn, Bool.not_true, Bool.false_eq_true, ite_false, hxm]
      exact ih
    · have hxn2 : (!(x.name == n)) = true := by
        simp only [Bool.not_eq_true'] at hxn ⊢
        exact Bool.eq_false_iff.mpr hxn
      simp only [hxn2, if_true, List.filter_cons]
      by_cases hxm : (x.name == m) = true
      · simp only [hxm, if_true]
        rw [ih]
      · simp only [hxm, Bool.false_eq_true, ite_false]
        exact ih

theorem setRemove_filter_self (s : List Lint) (n : String) :
    (setRemove s n).filter (fun x => x.name == n) = [] := by
  rw [List.filter_eq_nil_iff]
  intro a ha
  have := List.of_mem_filter ha
  simp only [Bool.not_eq_true'] at this
  simp [this]

theorem mapInsert_filter_self (es : List (Lint × LintResult)) (l : Lint) (o : LintResult)
    (h : es.filter (fun p => p.1.name == l.name) = []) :
    (mapInsert es l o).filter (fun p => p.1.name == l.name) = [(l, o)] := by
  induction es with
  | nil => simp [mapInsert]
  | cons x xs ih =>
    obtain ⟨x1, x2⟩ := x
    rw [List.filter_cons] at h
    by_cases hx : (x1.name == l.name) = true
    · rw [if_pos hx] at h
      exact absurd h (by simp)
    · rw [if_neg (by simp only [hx]; exact Bool.false_ne_true)] at h
      have hx2 : x1.name ≠ l.name := by
        intro hc
        exact absurd (beq_iff_eq.mpr hc) (by simp [hx])
      unfold mapInsert
      by_cases h1 : strLt l.name x1.name = true
      · rw [if_pos h1]
        rw [List.filter_cons, if_pos (by simp), List.filter_cons,
          if_neg (by simp only [hx]; exact Bool.false_ne_true), h]
      · rw [if_neg h1]
        by_cases h2 : (l.name == x1.name) = true
        · exact absurd (beq_iff_eq.mp h2).symm hx2
        · rw [if_neg (by simp only [h2]; exact Bool.false_ne_true)]
          rw [List.filter_cons, if_neg (by simp only [hx]; exact Bool.false_ne_true)]
          exact ih h

theorem mapInsert_filter_ne (es : List (Lint × LintResult)) (l : Lint) (o : LintResult)
    (m : String) (h : m ≠ l.name) :
    (mapInsert es l o).filter (fun p => p.1.name == m) = es.filter (fun p => p.1.name == m) := by
  induction es with
  | nil =>
    simp only [mapInsert, List.filter_cons, List.filter_nil]
    rw [if_neg (by simp only [beq_iff_eq]; exact fun hc => h hc.symm)]
  | cons x xs ih =>
    obtain ⟨x1, x2⟩ := x
    unfold mapInsert
    by_cases h1 : strLt l.name x1.name = true
    · rw [if_pos h1, List.filter_cons,
        if_neg (by simp only [beq_iff_eq]; exact fun hc => h hc.symm)]
    · rw [if_neg h1]
      by_cases h2 : (l.name == x1.name) = true
      · rw [if_pos h2]
        have hx : x1.name = l.name := (beq_iff_eq.mp h2).symm
        rw [List.filter_cons, List.filter_cons]
        have hm : (x1.name == m) = false := by
          simp only [beq_eq_false_iff_ne, ne_eq, hx]
          exact fun hc => h hc.symm
        simp only [hm, Bool.false_eq_true, ite_false]
      · rw [if_neg (by simp only [h2]; exact Bool.false_ne_true)]
        rw [List.filter_cons, List.filter_cons]
        by_cases hm : (x1.name == m) = true
        · simp only [hm, if_true]
          rw [ih]
        · simp only [hm, Bool.false_eq_true, ite_false]
          exact ih

theorem applyErrors_cons (st : WalkState) (p : Lint × LintResult)
    (rest : List (Lint × LintResult)) :
    applyErrors st (p :: rest)
      = applyErrors ⟨setRemove st.active p.1.name, mapInsert st.errors p.1 p.2⟩ rest := rfl

theorem applyErrors_for_other :
    ∀ (errs : List (Lint × LintResult)) (st : WalkState) (n : String),
      (∀ p ∈ errs, p.1.name ≠ n) →
      activeFor (applyErrors st errs) n = activeFor st n ∧
        errorsFor (applyErrors st errs) n = errorsFor st n := by
  intro errs
  induction errs with
  | nil => intro st n _; exact ⟨rfl, rfl⟩
  | cons p rest ih =>
    intro st n h
    have hp : p.1.name ≠ n := h p (List.mem_cons_self p rest)
    rw [applyErrors_cons]
    have hmid := ih ⟨setRemove st.active p.1.name, mapInsert st.errors p.1 p.2⟩ n
      (fun q hq => h q (List.mem_cons_of_mem p hq))
    refine ⟨hmid.1.trans ?_, hmid.2.trans ?_⟩
    · exact setRemove_filter_ne st.active p.1.name n (fun hc => hp hc.symm)
    · exact mapInsert_filter_ne st.errors p.1 p.2 n (fun hc => hp hc.symm)

theorem applyErrors_for_self :
    ∀ (errs : List (Lint × LintResult)) (st : WalkState) (l : Lint) (o : LintResult),
      errs.filter (fun p => p.1.name == l.name) = [(l, o)] →
      errorsFor st l.name = [] →
      activeFor (applyErrors st errs) l.name = [] ∧
        errorsFor (applyErrors st errs) l.name = [(l, o)] := by
  intro errs
  induction errs with
  | nil =>
    intro st l o hf _
    exact absurd hf (by simp)
  | cons p rest ih =>
    intro st l o hf he
    rw [List.filter_cons] at hf
    by_cases hp : (p.1.name == l.name) = true
    · rw [if_pos hp] at hf
      have hpl : p = (l, o) := (List.cons_eq_cons.mp hf).1
      have hrest : rest.filter (fun q => q.1.name == l.name) = [] :=
        (List.cons_eq_cons.mp hf).2
      subst hpl
      rw [applyErrors_cons]
      have h1 : activeFor ⟨setRemove st.active l.name, mapInsert st.errors l o⟩ l.name = [] :=
        setRemove_filter_self st.active l.name
      have h2 : errorsFor ⟨setRemove st.active l.name, mapInsert st.errors l o⟩ l.name = [(l, o)] :=
        mapInsert_filter_self st.errors l o he
      have hother := applyErrors_for_other rest
        ⟨setRemove st.active l.name, mapInsert st.errors l o⟩ l.name
        (by
          intro q hq
          have := List.filter_eq_nil_iff.mp hrest q hq
          simp only [beq_iff_eq] at this
          exact this)
      exact ⟨hother.1.trans h1, hother.2.trans h2⟩
    · rw [if_neg (by simp only [hp]; exact Bool.false_ne_true)] at hf
      have hpl : p.1.name ≠ l.name := by
        intro hc
        exact absurd (beq_iff_eq.mpr hc) (by simp [hp])
      rw [applyErrors_cons]
      refine ih ⟨setRemove st.active p.1.name, mapInsert st.errors p.1 p.2⟩ l o hf ?_
      exact (mapInsert_filter_ne st.errors p.1 p.2 l.name (fun hc => hpl hc.symm)).trans he

theorem runWalk_dead :
    ∀ (es : List WalkEntry) (st : WalkState) (n : String) (v : List (Lint × LintResult)),
      activeFor st n = [] → errorsFor st n = v →
      activeFor (runWalk st es) n = [] ∧ errorsFor (runWalk st es) n = v := by
  intro es
  induction es with
  | nil => intro st n v ha hv; exact ⟨ha, hv⟩
  | cons e rest ih =>
    intro st n v ha hv
    unfold runWalk lintWalkCallback
    by_cases hemp : st.active.isEmpty = true
    · simp only [hemp, if_true]
      exact ⟨ha, hv⟩
    · simp only [hemp, Bool.false_eq_true, ite_false]
      have hnames : ∀ p ∈ iterationErrors st.active e, p.1.name ≠ n := by
        intro p hp hc
        have hmem : p.1 ∈ st.active := iterationErrors_fst_mem st.active e p hp
        have : p.1 ∈ activeFor st n := by
          unfold activeFor
          exact List.mem_filter.mpr ⟨hmem, beq_iff_eq.mpr hc⟩
        rw [ha] at this
        exact List.not_mem_nil p.1 this
      have hother := applyErrors_for_other (iterationErrors st.active e) st n hnames
      exact ih (applyErrors st (iterationErrors st.active e)) n v
        (hother.1.trans ha) (hother.2.trans hv)

theorem firstFailureOpt_cons_ok (l : Lint) (e : WalkEntry) (rest : List WalkEntry)
    (h : runRecursive l e = Except.ok (Except.ok ())) :
    firstFailureOpt l (e :: rest) = firstFailureOpt l rest := by
  conv_lhs => unfold firstFailureOpt
  rw [h]

theorem firstFailureOpt_cons_fail (l : Lint) (e : WalkEntry) (rest : List WalkEntry)
    (h : runRecursive l e ≠ Except.ok (Except.ok ())) :
    firstFailureOpt l (e :: rest) = some (runRecursive l e) := by
  unfold firstFailureOpt
  cases hr : runRecursive l e with
  | error s => rfl
  | ok a =>
    cases a with
    | error le => rfl
    | ok u => cases u; exact absurd hr h

theorem specFirstFailure_eq_opt (l : Lint) :
    ∀ es : List WalkEntry, specFirstFailure l es = (firstFailureOpt l es).getD lint_ok := by
  intro es
  induction es with
  | nil => rfl
  | cons e rest ih =>
    unfold specFirstFailure firstFailureOpt
    cases hr : runRecursive l e with
    | error s => rfl
    | ok a =>
      cases a with
      | error le => rfl
      | ok u => cases u; exact ih

theorem runWalk_tracked :
    ∀ (es : List WalkEntry) (st : WalkState) (l : Lint),
      activeFor st l.name = [l] → errorsFor st l.name = [] →
      (firstFailureOpt l es = none →
        activeFor (runWalk st es) l.name = [l] ∧ errorsFor (runWalk st es) l.name = []) ∧
      (∀ o, firstFailureOpt l es = some o →
        activeFor (runWalk st es) l.name = [] ∧ errorsFor (runWalk st es) l.name = [(l, o)]) := by
  intro es
  induction es with
  | nil =>
    intro st l ha he
    exact ⟨fun _ => ⟨ha, he⟩, fun o h => absurd h (by simp [firstFailureOpt])⟩
  | cons e rest ih =>
    intro st l ha he
    have hlmem : l ∈ st.active := by
      have : l ∈ activeFor st l.name := by rw [ha]; exact List.mem_singleton.mpr rfl
      exact (List.mem_filter.mp this).1
    have hemp : st.active.isEmpty = false := by
      cases hst : st.active with
      | nil => rw [hst] at hlmem; exact absurd hlmem (List.not_mem_nil l)
      | cons a b => rfl
    unfold runWalk lintWalkCallback
    simp only [hemp, Bool.false_eq_true, ite_false]
    have hfe : (iterationErrors st.active e).filter (fun p => p.1.name == l.name)
        = iterationErrors [l] e := by
      rw [iterationErrors_filter]
      unfold activeFor at ha
      rw [ha]
    by_cases hr : runRecursive l e = Except.ok (Except.ok ())
    · have hnil : (iterationErrors st.active e).filter (fun p => p.1.name == l.name) = [] :=
        hfe.trans (iterationErrors_singleton_ok l e hr)
      have hnames : ∀ p ∈ iterationErrors st.active e, p.1.name ≠ l.name := by
        intro p hp hc
        have : p ∈ (iterationErrors st.active e).filter (fun p => p.1.name == l.name) :=
          List.mem_filter.mpr ⟨hp, beq_iff_eq.mpr hc⟩
        rw [hnil] at this
        exact List.not_mem_nil p this
      have hother := applyErrors_for_other (iterationErrors st.active e) st l.name hnames
      have := ih (applyErrors st (iterationErrors st.active e)) l
        (hother.1.trans ha) (hother.2.trans he)
      rw [firstFailureOpt_cons_ok l e rest hr]
      exact this
    · have hone : (iterationErrors st.active e).filter (fun p => p.1.name == l.name)
          = [(l, runRecursive l e)] :=
        hfe.trans (iterationErrors_singleton_fail l e hr)
      have hself := applyErrors_for_self (iterationErrors st.active e) st l
        (runRecursive l e) hone he
      have hdead := runWalk_dead rest (applyErrors st (iterationErrors st.active e)) l.name
        [(l, runRecursive l e)] hself.1 hself.2
      rw [firstFailureOpt_cons_fail l e rest hr]
      constructor
      · intro hcon
        exact absurd hcon (by simp)
      · intro o ho
        have : o = runRecursive l e := (Option.some_inj.mp ho).symm
        subst this
        exact hdead


/-! ### Conservation of rules through the walk -/

theorem setRemove_length (s : List Lint) (n : String)
    (hnd : (s.map (fun l => l.name)).Nodup) (hx : n ∈ s.map (fun l => l.name)) :
    (setRemove s n).length + 1 = s.length := by
  induction s with
  | nil => exact absurd hx (List.not_mem_nil n)
  | cons x xs ih =>
    rw [List.map_cons, List.nodup_cons] at hnd
    unfold setRemove
    rw [List.filter_cons]
    by_cases hxn : (x.name == n) = true
    · have hxn2 : x.name = n := beq_iff_eq.mp hxn
      have hrest : xs.filter (fun y => !(y.name == n)) = xs := by
        rw [List.filter_eq_self]
        intro a ha
        simp only [Bool.not_eq_eq_eq_not, Bool.not_true, beq_eq_false_iff_ne, ne_eq]
        intro hc
        exact hnd.1 (by rw [hxn2, ← hc]; exact List.mem_map_of_mem (fun l => l.name) ha)
      simp only [hxn, Bool.not_true, Bool.false_eq_true, ite_false]
      rw [hrest, List.length_cons]
    · have hn2 : n ∈ xs.map (fun l => l.name) := by
        rw [List.map_cons, List.mem_cons] at hx
        rcases hx with hc | hc
        · exact absurd (beq_iff_eq.mpr hc.symm) (by simp [hxn])
        · exact hc
      have hxn2 : (!(x.name == n)) = true := by
        simp only [Bool.not_eq_true'] at hxn ⊢
        exact Bool.eq_false_iff.mpr hxn
      simp only [hxn2, if_true, List.length_cons]
      unfold setRemove at ih
      rw [← ih hnd.2 hn2]

theorem mapInsert_length (es : List (Lint × LintResult)) (l : Lint) (o : LintResult)
    (h : l.name ∉ es.map (fun p => p.1.name)) :
    (mapInsert es l o).length = es.length + 1 := by
  induction es with
  | nil => rfl
  | cons x xs ih =>
    obtain ⟨x1, x2⟩ := x
    rw [List.map_cons, List.mem_cons] at h
    push_neg at h
    unfold mapInsert
    by_cases h1 : strLt l.name x1.name = true
    · rw [if_pos h1]
      rfl
    · rw [if_neg h1, if_neg (by simp only [beq_iff_eq]; exact h.1)]
      rw [List.length_cons, List.length_cons, ih h.2]

theorem mapInsert_names_perm (es : List (Lint × LintResult)) (l : Lint) (o : LintResult)
    (h : l.name ∉ es.map (fun p => p.1.name)) :
    ((mapInsert es l o).map (fun p => p.1.name)).Perm
      (l.name :: es.map (fun p => p.1.name)) := by
  induction es with
  | nil => exact List.Perm.refl _
  | cons x xs ih =>
    obtain ⟨x1, x2⟩ := x
    rw [List.map_cons, List.mem_cons] at h
    push_neg at h
    unfold mapInsert
    by_cases h1 : strLt l.name x1.name = true
    · rw [if_pos h1]
      exact List.Perm.refl _
    · rw [if_neg h1, if_neg (by simp only [beq_iff_eq]; exact h.1)]
      rw [List.map_cons, List.map_cons]
      exact List.Perm.trans (List.Perm.cons x1.name (ih h.2))
        (List.Perm.swap l.name x1.name (xs.map (fun p => p.1.name)))

theorem iterationErrors_fst_sublist (active : List Lint) (e : WalkEntry) :
    ((iterationErrors active e).map (fun p => p.1)).Sublist active := by
  induction active with
  | nil => exact List.Sublist.refl _
  | cons x xs ih =>
    unfold iterationErrors at ih ⊢
    rw [List.filterMap_cons]
    cases hfx : iterTest e x with
    | none => exact List.Sublist.cons x ih
    | some p =>
      rw [List.map_cons, iterTest_fst e x p hfx]
      exact List.Sublist.cons₂ x ih

theorem applyErrors_conserve :
    ∀ (errs : List (Lint × LintResult)) (st : WalkState),
      (errs.map (fun p => p.1.name)).Nodup →
      (∀ p ∈ errs, p.1 ∈ st.active) →
      ((st.active.map (fun l => l.name)) ++ (st.errors.map (fun p => p.1.name))).Nodup →
      (((applyErrors st errs).active.map (fun l => l.name))
          ++ ((applyErrors st errs).errors.map (fun p => p.1.name))).Nodup ∧
        (applyErrors st errs).active.length + (applyErrors st errs).errors.length
          = st.active.length + st.errors.length := by
  intro errs
  induction errs with
  | nil => intro st _ _ hok; exact ⟨hok, rfl⟩
  | cons p rest ih =>
    intro st hnd hmem hok
    obtain ⟨x, v⟩ := p
    have hx : x ∈ st.active := hmem (x, v) (List.mem_cons_self _ _)
    rcases List.nodup_append.mp hok with ⟨haN, heN, hdisj⟩
    have hxa : x.name ∈ st.active.map (fun l => l.name) :=
      List.mem_map_of_mem (fun l => l.name) hx
    have hxe : x.name ∉ st.errors.map (fun p => p.1.name) := fun hc => hdisj hxa hc
    rw [List.map_cons, List.nodup_cons] at hnd
    rw [applyErrors_cons]
    have hlen1 : (setRemove st.active x.name).length + 1 = st.active.length :=
      setRemove_length st.active x.name haN hxa
    have hlen2 : (mapInsert st.errors x v).length = st.errors.length + 1 :=
      mapInsert_length st.errors x v hxe
    have hmidN : (((setRemove st.active x.name).map (fun l => l.name))
        ++ ((mapInsert st.errors x v).map (fun p => p.1.name))).Nodup := by
      have hperm : ((mapInsert st.errors x v).map (fun p => p.1.name)).Perm
          (x.name :: st.errors.map (fun p => p.1.name)) :=
        mapInsert_names_perm st.errors x v hxe
      have hwhole : ((setRemove st.active x.name).map (fun l => l.name)
          ++ (mapInsert st.errors x v).map (fun p => p.1.name)).Perm
          ((setRemove st.active x.name).map (fun l => l.name)
            ++ (x.name :: st.errors.map (fun p => p.1.name))) :=
        List.Perm.append_left _ hperm
      refine hwhole.nodup_iff.mpr ?_
      rw [List.nodup_append]
      have hsubA : ((setRemove st.active x.name).map (fun l => l.name)).Sublist
          (st.active.map (fun l => l.name)) :=
        List.Sublist.map (fun l => l.name) (List.filter_sublist st.active)
      refine ⟨haN.sublist hsubA, List.nodup_cons.mpr ⟨hxe, heN⟩, ?_⟩
      intro a ha hb
      have haA : a ∈ st.active.map (fun l => l.name) := hsubA.mem ha
      have hane : a ≠ x.name := by
        rcases List.mem_map.mp ha with ⟨y, hy, rfl⟩
        have := List.of_mem_filter hy
        simp only [Bool.not_eq_true', beq_eq_false_iff_ne, ne_eq] at this
        exact this
      rcases List.mem_cons.mp hb with hc | hc
      · exact hane hc
      · exact hdisj haA hc
    have hrestmem : ∀ q ∈ rest, q.1 ∈ setRemove st.active x.name := by
      intro q hq
      have hq1 : q.1 ∈ st.active := hmem q (List.mem_cons_of_mem _ hq)
      have hqne : q.1.name ≠ x.name := by
        intro hc
        exact hnd.1 (hc ▸ List.mem_map_of_mem (fun p => p.1.name) hq)
      refine List.mem_filter.mpr ⟨hq1, ?_⟩
      simp only [Bool.not_eq_eq_eq_not, Bool.not_true, beq_eq_false_iff_ne, ne_eq]
      exact hqne
    have := ih ⟨setRemove st.active x.name, mapInsert st.errors x v⟩ hnd.2 hrestmem hmidN
    refine ⟨this.1, ?_⟩
    rw [this.2]
    show (setRemove st.active x.name).length + (mapInsert st.errors x v).length = _
    omega

theorem runWalk_conserve :
    ∀ (es : List WalkEntry) (st : WalkState),
      ((st.active.map (fun l => l.name)) ++ (st.errors.map (fun p => p.1.name))).Nodup →
      (runWalk st es).active.length + (runWalk st es).errors.length
        = st.active.length + st.errors.length := by
  intro es
  induction es with
  | nil => intro st _; rfl
  | cons e rest ih =>
    intro st hok
    unfold runWalk lintWalkCallback
    by_cases hemp : st.active.isEmpty = true
    · simp only [hemp, if_true]
    · simp only [hemp, Bool.false_eq_true, ite_false]
      have hndE : ((iterationErrors st.active e).map (fun p => p.1.name)).Nodup := by
        have h1 : ((iterationErrors st.active e).map (fun p => p.1.name))
            = (((iterationErrors st.active e).map (fun p => p.1)).map (fun l => l.name)) := by
          rw [List.map_map]
          rfl
        rw [h1]
        have haN : (st.active.map (fun l => l.name)).Nodup :=
          (List.nodup_append.mp hok).1
        exact haN.sublist (List.Sublist.map (fun l => l.name)
          (iterationErrors_fst_sublist st.active e))
      have hmem : ∀ p ∈ iterationErrors st.active e, p.1 ∈ st.active :=
        fun p hp => iterationErrors_fst_mem st.active e p hp
      have hcons := applyErrors_conserve (iterationErrors st.active e) st hndE hmem hok
      rw [ih (applyErrors st (iterationErrors st.active e)) hcons.1]
      exact hcons.2

/-! ### Membership through the walk, and result-loop lemmas -/

theorem applyErrors_active_subset :
    ∀ (errs : List (Lint × LintResult)) (st : WalkState) (x : Lint),
      x ∈ (applyErrors st errs).active → x ∈ st.active := by
  intro errs
  induction errs with
  | nil => intro st x h; exact h
  | cons p rest ih =>
    intro st x h
    rw [applyErrors_cons] at h
    have := ih _ x h
    exact List.mem_of_mem_filter this

theorem mapInsert_fst_mem (es : List (Lint × LintResult)) (l : Lint) (o : LintResult)
    (q : Lint × LintResult) (h : q ∈ mapInsert es l o) :
    q.1 = l ∨ q.1 ∈ es.map (fun p => p.1) := by
  induction es with
  | nil =>
    rcases List.mem_singleton.mp h with rfl
    exact Or.inl rfl
  | cons x xs ih =>
    obtain ⟨x1, x2⟩ := x
    unfold mapInsert at h
    by_cases h1 : strLt l.name x1.name = true
    · rw [if_pos h1] at h
      rcases List.mem_cons.mp h with rfl | h2
      · exact Or.inl rfl
      · rcases List.mem_cons.mp h2 with rfl | h3
        · exact Or.inr (List.mem_cons_self _ _)
        · exact Or.inr (List.mem_cons_of_mem _ (List.mem_map_of_mem (fun p => p.1) h3))
    · rw [if_neg h1] at h
      by_cases h2 : (l.name == x1.name) = true
      · rw [if_pos h2] at h
        rcases List.mem_cons.mp h with rfl | h3
        · exact Or.inr (List.mem_cons_self _ _)
        · exact Or.inr (List.mem_cons_of_mem _ (List.mem_map_of_mem (fun p => p.1) h3))
      · rw [if_neg h2] at h
        rcases List.mem_cons.mp h with rfl | h3
        · exact Or.inr (List.mem_cons_self _ _)
        · rcases ih h3 with h4 | h4
          · exact Or.inl h4
          · exact Or.inr (List.mem_cons_of_mem _ h4)

theorem applyErrors_errors_fst :
    ∀ (errs : List (Lint × LintResult)) (st : WalkState) (q : Lint × LintResult),
      q ∈ (applyErrors st errs).errors →
      q.1 ∈ st.errors.map (fun p => p.1) ∨ q.1 ∈ errs.map (fun p => p.1) := by
  intro errs
  induction errs with
  | nil => intro st q h; exact Or.inl (List.mem_map_of_mem (fun p => p.1) h)
  | cons hd rest ih =>
    intro st q h
    rw [applyErrors_cons] at h
    rcases ih _ q h with h2 | h2
    · rcases List.mem_map.mp h2 with ⟨r, hr, hq⟩
      rcases mapInsert_fst_mem st.errors hd.1 hd.2 r hr with h3 | h3
      · refine Or.inr ?_
        rw [← hq, h3]
        exact List.mem_map_of_mem (fun p => p.1) (List.mem_cons_self hd rest)
      · refine Or.inl ?_
        rw [← hq]
        exact h3
    · rcases List.mem_map.mp h2 with ⟨r, hr, hq⟩
      refine Or.inr ?_
      rw [← hq]
      exact List.mem_map_of_mem (fun p => p.1) (List.mem_cons_of_mem hd hr)

theorem runWalk_mem :
    ∀ (es : List WalkEntry) (st : WalkState),
      (∀ x ∈ (runWalk st es).active, x ∈ st.active) ∧
      (∀ q ∈ (runWalk st es).errors,
        q.1 ∈ st.errors.map (fun p => p.1) ∨ q.1 ∈ st.active) := by
  intro es
  induction es with
  | nil => intro st; exact ⟨fun x h => h, fun q h => Or.inl (List.mem_map_of_mem _ h)⟩
  | cons e rest ih =>
    intro st
    unfold runWalk lintWalkCallback
    by_cases hemp : st.active.isEmpty = true
    · simp only [hemp, if_true]
      exact ⟨fun x h => h, fun q h => Or.inl (List.mem_map_of_mem _ h)⟩
    · simp only [hemp, Bool.false_eq_true, ite_false]
      have hmid := ih (applyErrors st (iterationErrors st.active e))
      constructor
      · intro x h
        exact applyErrors_active_subset _ st x (hmid.1 x h)
      · intro q h
        rcases hmid.2 q h with h2 | h2
        · rcases List.mem_map.mp h2 with ⟨r, hr, hq⟩
          rcases applyErrors_errors_fst _ st r hr with h3 | h3
          · exact Or.inl (hq ▸ h3)
          · rcases List.mem_map.mp h3 with ⟨u, hu, hr2⟩
            have := iterationErrors_fst_mem st.active e u hu
            exact Or.inr (by rw [← hq, ← hr2]; exact this)
        · exact Or.inr (applyErrors_active_subset _ st q.1 h2)

theorem processResults_sum :
    ∀ (rs : List (Lint × LintResult)) (p w f : Nat),
      (processResults rs).2 = Except.ok (p, w, f) → p + w + f = rs.length := by
  intro rs
  induction rs with
  | nil =>
    intro p w f h
    simp only [processResults, Except.ok.injEq, Prod.mk.injEq] at h
    obtain ⟨h1, h2, h3⟩ := h
    rw [← h1, ← h2, ← h3]
    rfl
  | cons x rest ih =>
    intro p w f h
    obtain ⟨l, r⟩ := x
    cases r with
    | error e => simp [processResults] at h
    | ok r2 =>
      cases r2 with
      | error le =>
        cases hty : l.ty with
        | Fatal =>
          simp only [processResults, hty] at h
          rcases hpr : (processResults rest).2 with e2 | t
          · rw [hpr] at h
            simp [Except.map] at h
          · obtain ⟨t1, t2, t3⟩ := t
            rw [hpr] at h
            simp only [Except.map, Except.ok.injEq, Prod.mk.injEq] at h
            obtain ⟨h1, h2, h3⟩ := h
            have := ih t1 t2 t3 hpr
            simp only [List.length_cons]
            omega
        | Warning =>
          simp only [processResults, hty] at h
          rcases hpr : (processResults rest).2 with e2 | t
          · rw [hpr] at h
            simp [Except.map] at h
          · obtain ⟨t1, t2, t3⟩ := t
            rw [hpr] at h
            simp only [Except.map, Except.ok.injEq, Prod.mk.injEq] at h
            obtain ⟨h1, h2, h3⟩ := h
            have := ih t1 t2 t3 hpr
            simp only [List.length_cons]
            omega
      | ok u =>
        cases u
        simp only [processResults] at h
        rcases hpr : (processResults rest).2 with e2 | t
        · rw [hpr] at h
          simp [Except.map] at h
        · obtain ⟨t1, t2, t3⟩ := t
          rw [hpr] at h
          simp only [Except.map, Except.ok.injEq, Prod.mk.injEq] at h
          obtain ⟨h1, h2, h3⟩ := h
          have := ih t1 t2 t3 hpr
          simp only [List.length_cons]
          omega

theorem processResults_no_error :
    ∀ rs : List (Lint × LintResult), (∀ q ∈ rs, ∃ v, q.2 = Except.ok v) →
      (processResults rs).1 = violationLines rs ∧
        ∃ t, (processResults rs).2 = Except.ok t := by
  intro rs
  induction rs with
  | nil => intro _; exact ⟨rfl, ⟨(0, 0, 0), rfl⟩⟩
  | cons x rest ih =>
    intro hok
    obtain ⟨l, r⟩ := x
    obtain ⟨v, hv⟩ := hok (l, r) (List.mem_cons_self _ _)
    simp only at hv
    subst hv
    have ihr := ih (fun q hq => hok q (List.mem_cons_of_mem _ hq))
    obtain ⟨t, ht⟩ := ihr.2
    cases v with
    | error le =>
      cases hty : l.ty with
      | Fatal =>
        constructor
        · simp only [processResults, hty, violationLines, List.filterMap_cons, violationLine]
          rw [ihr.1]
          rfl
        · refine ⟨(t.1, t.2.1, t.2.2 + 1), ?_⟩
          simp only [processResults, hty]
          rw [ht]
          rfl
      | Warning =>
        constructor
        · simp only [processResults, hty, violationLines, List.filterMap_cons, violationLine]
          rw [ihr.1]
          rfl
        · refine ⟨(t.1, t.2.1 + 1, t.2.2), ?_⟩
          simp only [processResults, hty]
          rw [ht]
          rfl
    | ok u =>
      cases u
      constructor
      · simp only [processResults, violationLines, List.filterMap_cons]
        rw [ihr.1]
        rfl
      · refine ⟨(t.1 + 1, t.2.1, t.2.2), ?_⟩
        simp only [processResults]
        rw [ht]
        rfl

theorem processResults_abort :
    ∀ (pre : List (Lint × LintResult)) (l : Lint) (e : String)
      (rest : List (Lint × LintResult)),
      (∀ q ∈ pre, ∃ v, q.2 = Except.ok v) →
      processResults (pre ++ (l, Except.error e) :: rest)
        = (violationLines pre,
           Except.error ("Unexpected runtime error running lint " ++ l.name ++ ": " ++ e)) := by
  intro pre
  induction pre with
  | nil => intro l e rest _; rfl
  | cons x pre2 ih =>
    intro l e rest hok
    obtain ⟨y, r⟩ := x
    obtain ⟨v, hv⟩ := hok (y, r) (List.mem_cons_self _ _)
    simp only at hv
    subst hv
    have ihr := ih l e rest (fun q hq => hok q (List.mem_cons_of_mem _ hq))
    cases v with
    | error le =>
      cases hty : y.ty with
      | Fatal =>
        simp only [List.cons_append, processResults, hty, violationLines,
          List.filterMap_cons, violationLine, List.append_eq]
        rw [ihr]
        rfl
      | Warning =>
        simp only [List.cons_append, processResults, hty, violationLines,
          List.filterMap_cons, violationLine, List.append_eq]
        rw [ihr]
        rfl
    | ok u =>
      cases u
      simp only [List.cons_append, processResults, violationLines, List.filterMap_cons,
        List.append_eq]
      rw [ihr]
      rfl

/-! ### Pipeline lemmas -/

theorem applicableSorted_names_nodup (lints : List Lint) (rt : RootType) (skip : List String)
    (h : (lints.map (fun l => l.name)).Nodup) :
    ((applicableSorted lints rt skip).map (fun l => l.name)).Nodup := by
  have h1 : ((lints.filter (lintPred skip rt)).map (fun l => l.name)).Nodup :=
    h.sublist (List.Sublist.map (fun l => l.name) (List.filter_sublist lints))
  exact (((sortByName_perm (lints.filter (lintPred skip rt))).map (fun l => l.name)).nodup_iff).mpr h1

theorem recs_names_nodup (lints : List Lint) (rt : RootType) (skip : List String)
    (h : (lints.map (fun l => l.name)).Nodup) :
    (((applicableSorted lints rt skip).filter (fun l => !l.isRegular)).map
      (fun l => l.name)).Nodup := by
  refine (applicableSorted_names_nodup lints rt skip h).sublist ?_
  exact List.Sublist.map (fun l => l.name)
    (List.filter_sublist (applicableSorted lints rt skip))

theorem recs_strict (lints : List Lint) (rt : RootType) (skip : List String)
    (h : (lints.map (fun l => l.name)).Nodup) :
    ((applicableSorted lints rt skip).filter (fun l => !l.isRegular)).Pairwise
      (fun a b => strLt a.name b.name = true) := by
  have hsorted : ((applicableSorted lints rt skip).filter (fun l => !l.isRegular)).Pairwise
      (fun a b => strLe a.name b.name = true) :=
    (sortByName_sorted _).sublist (List.filter_sublist _)
  exact strict_of_sorted_nodup _ hsorted (recs_names_nodup lints rt skip h)

theorem recSet_eq (lints : List Lint) (rt : RootType) (skip : List String)
    (h : (lints.map (fun l => l.name)).Nodup) :
    btreeOfList ((applicableSorted lints rt skip).filter (fun l => !l.isRegular))
      = (applicableSorted lints rt skip).filter (fun l => !l.isRegular) :=
  btreeOfList_sorted_id _ (recs_strict lints rt skip h)

theorem filter_name_singleton (l : Lint) :
    ∀ s : List Lint, (s.map (fun l => l.name)).Nodup → l ∈ s →
      s.filter (fun x => x.name == l.name) = [l] := by
  intro s
  induction s with
  | nil => intro _ h; exact absurd h (List.not_mem_nil l)
  | cons x xs ih =>
    intro hnd hmem
    rw [List.map_cons, List.nodup_cons] at hnd
    rw [List.filter_cons]
    rcases List.mem_cons.mp hmem with rfl | hmem2
    · rw [if_pos (by simp)]
      have : xs.filter (fun x => x.name == l.name) = [] := by
        rw [List.filter_eq_nil_iff]
        intro a ha hc
        exact hnd.1 ((beq_iff_eq.mp hc) ▸ List.mem_map_of_mem (fun l => l.name) ha)
      rw [this]
    · have hxl : (x.name == l.name) = false := by
        simp only [beq_eq_false_iff_ne, ne_eq]
        intro hc
        exact hnd.1 (hc ▸ List.mem_map_of_mem (fun l => l.name) hmem2)
      simp only [hxl, Bool.false_eq_true, ite_false]
      exact ih hnd.2 hmem2

/-- C1: first-failure-wins for per-node rules: a single run's result list
carries exactly one outcome for each applicable recursive rule, namely its
outcome at the first visited entry where it did not return ok (and ok if
that never happened); so two independently violating nodes yield one
reported violation, not two. -/
theorem first_failure_wins (lints : List Lint) (rt : RootType) (skip : List String)
    (root : FsNode) (entries : List WalkEntry) (l : Lint)
    (hnodup : (lints.map (fun l => l.name)).Nodup)
    (hmem : l ∈ lints) (hpred : lintPred skip rt l = true) (hrec : l.isRegular = false) :
    (lintInnerResults lints rt skip root entries).filter (fun p => p.1.name == l.name)
      = [(l, specFirstFailure l entries)] := by
  have hmemApp : l ∈ applicableSorted lints rt skip :=
    (sortByName_perm _).mem_iff.mpr (List.mem_filter.mpr ⟨hmem, hpred⟩)
  have hmemRecs : l ∈ (applicableSorted lints rt skip).filter (fun l => !l.isRegular) :=
    List.mem_filter.mpr ⟨hmemApp, by rw [hrec]; rfl⟩
  have hsortedN := applicableSorted_names_nodup lints rt skip hnodup
  have hrecsN := recs_names_nodup lints rt skip hnodup
  have hset := recSet_eq lints rt skip hnodup
  have hinit : activeFor ⟨btreeOfList ((applicableSorted lints rt skip).filter
      (fun l => !l.isRegular)), []⟩ l.name = [l] := by
    unfold activeFor
    rw [hset]
    exact filter_name_singleton l _ hrecsN hmemRecs
  have hinitE : errorsFor ⟨btreeOfList ((applicableSorted lints rt skip).filter
      (fun l => !l.isRegular)), []⟩ l.name = [] := rfl
  have htracked := runWalk_tracked entries _ l hinit hinitE
  have hreg : (((applicableSorted lints rt skip).filter (fun l => l.isRegular)).map
      (fun x => (x, runRegular root x))).filter (fun p => p.1.name == l.name) = [] := by
    rw [List.filter_eq_nil_iff]
    intro q hq
    rcases List.mem_map.mp hq with ⟨x, hx, rfl⟩
    simp only [beq_iff_eq]
    intro hc
    have hx2 : x ∈ applicableSorted lints rt skip := List.mem_of_mem_filter hx
    have : x = l := List.inj_on_of_nodup_map hsortedN hx2 hmemApp hc
    subst this
    have := (List.mem_filter.mp hx).2
    rw [hrec] at this
    exact absurd this (by simp)
  unfold lintInnerResults lintResultsFromSorted
  rw [List.filter_append, List.filter_append, hreg, List.nil_append]
  rw [specFirstFailure_eq_opt]
  cases hff : firstFailureOpt l entries with
  | none =>
    have hres := htracked.1 hff
    unfold errorsFor at hres
    rw [hres.2, List.nil_append]
    rw [List.filter_map]
    have : ((runWalk ⟨btreeOfList ((applicableSorted lints rt skip).filter
        (fun l => !l.isRegular)), []⟩ entries).active.filter
          ((fun p => p.1.name == l.name) ∘ (fun l2 => (l2, lint_ok)))) = [l] := by
      have h2 := hres.1
      unfold activeFor at h2
      exact h2
    rw [this]
    rfl
  | some o =>
    have hres := htracked.2 o hff
    unfold errorsFor at hres
    rw [hres.2]
    rw [List.filter_map]
    have : ((runWalk ⟨btreeOfList ((applicableSorted lints rt skip).filter
        (fun l => !l.isRegular)), []⟩ entries).active.filter
          ((fun p => p.1.name == l.name) ∘ (fun l2 => (l2, lint_ok)))) = [] := by
      have h2 := hres.1
      unfold activeFor at h2
      exact h2
    rw [this]
    rfl

/-- C9: tally partition: when `lint_inner` returns successfully, every
registered rule is counted in exactly one tally, so the four tallies sum to
the number of registered rules. -/
theorem tally_partition (lints : List Lint) (rt : RootType) (skip : List String)
    (root : FsNode) (entries : List WalkEntry)
    (lines : List String) (t : LintExecutionResult)
    (hnodup : (lints.map (fun l => l.name)).Nodup)
    (h : lint_inner lints rt skip root entries = (lines, Except.ok t)) :
    t.passed + t.skipped + t.warnings + t.fatal = lints.length := by
  have h2 : (processResults (lintInnerResults lints rt skip root entries)).2.map
      (fun t2 => (⟨t2.2.1, t2.1, skippedCount lints rt skip, t2.2.2⟩ : LintExecutionResult))
        = Except.ok t := congrArg Prod.snd h
  rcases hpr : (processResults (lintInnerResults lints rt skip root entries)).2 with e | tup
  · rw [hpr] at h2
    exact absurd h2 (by simp [Except.map])
  · obtain ⟨p, w, f⟩ := tup
    rw [hpr] at h2
    simp only [Except.map, Except.ok.injEq] at h2
    have hsum : p + w + f = (lintInnerResults lints rt skip root entries).length :=
      processResults_sum _ p w f hpr
    have hset := recSet_eq lints rt skip hnodup
    have hcons : (runWalk ⟨btreeOfList ((applicableSorted lints rt skip).filter
          (fun l => !l.isRegular)), []⟩ entries).active.length
        + (runWalk ⟨btreeOfList ((applicableSorted lints rt skip).filter
          (fun l => !l.isRegular)), []⟩ entries).errors.length
        = ((applicableSorted lints rt skip).filter (fun l => !l.isRegular)).length := by
      have hok : ((btreeOfList ((applicableSorted lints rt skip).filter
            (fun l => !l.isRegular))).map (fun l => l.name)
          ++ (([] : List (Lint × LintResult)).map (fun p => p.1.name))).Nodup := by
        rw [hset]
        simpa using recs_names_nodup lints rt skip hnodup
      have := runWalk_conserve entries ⟨btreeOfList ((applicableSorted lints rt skip).filter
        (fun l => !l.isRegular)), []⟩ hok
      rw [this]
      show (btreeOfList _).length + ([] : List (Lint × LintResult)).length = _
      rw [hset]
      rfl
    have hlen : (lintInnerResults lints rt skip root entries).length
        = (applicableSorted lints rt skip).length := by
      unfold lintInnerResults lintResultsFromSorted
      rw [List.length_append, List.length_append, List.length_map, List.length_map]
      have hfl : (applicableSorted lints rt skip).length
          = ((applicableSorted lints rt skip).filter (fun l => l.isRegular)).length
            + ((applicableSorted lints rt skip).filter (fun l => !l.isRegular)).length :=
        List.length_eq_length_filter_add _
      omega
    have happlen : (applicableSorted lints rt skip).length
        = (lints.filter (lintPred skip rt)).length :=
      (sortByName_perm _).length_eq
    have htotal : lints.length = (lints.filter (lintPred skip rt)).length
        + skippedCount lints rt skip := by
      unfold skippedCount
      exact List.length_eq_length_filter_add _
    have ht1 : t.passed = p := by rw [← h2]
    have ht2 : t.warnings = w := by rw [← h2]
    have ht3 : t.fatal = f := by rw [← h2]
    have ht4 : t.skipped = skippedCount lints rt skip := by rw [← h2]
    rw [ht1, ht2, ht3, ht4]
    omega

/-! ### Filtering lemmas for the skip set -/

theorem lintPred_not (skip : List String) (rt : RootType) (l : Lint) :
    (!lintPred skip rt l) = (skip.contains l.name || rootTypeMismatch l rt) := by
  unfold lintPred rootTypeMismatch
  rcases hrt : l.root_type with _ | r
  · by_cases hc : skip.contains l.name = true
    · rw [hc]
      simp
    · rw [Bool.not_eq_true] at hc
      rw [hc]
      simp
  · by_cases hc : skip.contains l.name = true
    · rw [hc]
      simp
    · rw [Bool.not_eq_true] at hc
      rw [hc]
      by_cases hm : (r != rt) = true
      · simp [hm]
      · rw [Bool.not_eq_true] at hm
        simp [hm]

theorem lintPred_contains (skip : List String) (rt : RootType) (l : Lint)
    (h : lintPred skip rt l = true) : skip.contains l.name = false := by
  by_cases hc : skip.contains l.name = true
  · unfold lintPred at h
    rw [if_pos hc] at h
    exact absurd h (by simp)
  · exact Bool.eq_false_iff.mpr hc

theorem filter_or_length (xs : List Lint) (p q : Lint → Bool) :
    (xs.filter (fun x => p x || q x)).length
      = (xs.filter p).length + (xs.filter (fun x => !p x && q x)).length := by
  induction xs with
  | nil => rfl
  | cons x rest ih =>
    rw [List.filter_cons, List.filter_cons, List.filter_cons]
    by_cases hp : p x = true
    · simp only [hp, Bool.true_or, if_true, Bool.not_true, Bool.false_and,
        Bool.false_eq_true, ite_false, List.length_cons]
      omega
    · rw [Bool.not_eq_true] at hp
      by_cases hq : q x = true
      · simp only [hp, hq, Bool.false_or, if_true, Bool.not_false, Bool.true_and,
          Bool.false_eq_true, ite_false, List.length_cons]
        omega
      · rw [Bool.not_eq_true] at hq
        simp only [hp, hq, Bool.false_or, Bool.false_eq_true, ite_false,
          Bool.not_false, Bool.true_and]
        exact ih

theorem lintInnerResults_fst_mem (lints : List Lint) (rt : RootType) (skip : List String)
    (root : FsNode) (entries : List WalkEntry) (q : Lint × LintResult)
    (h : q ∈ lintInnerResults lints rt skip root entries) :
    q.1 ∈ applicableSorted lints rt skip := by
  unfold lintInnerResults lintResultsFromSorted at h
  rcases List.mem_append.mp h with h2 | h2
  · rcases List.mem_append.mp h2 with h3 | h3
    · rcases List.mem_map.mp h3 with ⟨x, hx, rfl⟩
      exact List.mem_of_mem_filter hx
    · have := (runWalk_mem entries ⟨btreeOfList ((applicableSorted lints rt skip).filter
        (fun l => !l.isRegular)), []⟩).2 q h3
      rcases this with h4 | h4
      · exact absurd h4 (by simp)
      · exact List.mem_of_mem_filter (btreeOfList_subset h4)
  · rcases List.mem_map.mp h2 with ⟨x, hx, rfl⟩
    have := (runWalk_mem entries ⟨btreeOfList ((applicableSorted lints rt skip).filter
      (fun l => !l.isRegular)), []⟩).1 x hx
    exact List.mem_of_mem_filter (btreeOfList_subset this)

/-- C2 (amended): a rule is skipped exactly when its name is in the skip
set or its root-type restriction mismatches the tag; the `skipped` count is
the number of such rules, i.e. `|S ∩ registered|` plus the number of
root-type-mismatched rules outside `S`; and no rule named in the skip set
contributes any outcome (hence no passed/fatal/warnings tally or transcript
line). -/
theorem skip_filtering_amended (lints : List Lint) (rt : RootType) (skip : List String)
    (root : FsNode) (entries : List WalkEntry) :
    skippedCount lints rt skip
        = (lints.filter (fun l => skip.contains l.name)).length
          + (lints.filter (fun l => !skip.contains l.name && rootTypeMismatch l rt)).length
      ∧ lints.filter (fun l => !lintPred skip rt l)
          = lints.filter (fun l => skip.contains l.name || rootTypeMismatch l rt)
      ∧ (lintInnerResults lints rt skip root entries).all
          (fun p => !skip.contains p.1.name) = true := by
  have hcongr : lints.filter (fun l => !lintPred skip rt l)
      = lints.filter (fun l => skip.contains l.name || rootTypeMismatch l rt) :=
    List.filter_congr (fun x _ => lintPred_not skip rt x)
  refine ⟨?_, hcongr, ?_⟩
  · unfold skippedCount
    rw [hcongr]
    exact filter_or_length lints (fun l => skip.contains l.name) (fun l => rootTypeMismatch l rt)
  · rw [List.all_eq_true]
    intro q hq
    have hmem := lintInnerResults_fst_mem lints rt skip root entries q hq
    have hpred : lintPred skip rt q.1 = true :=
      List.of_mem_filter ((sortByName_perm _).mem_iff.mp hmem)
    rw [lintPred_contains skip rt q.1 hpred]
    rfl

/-- C3: the verdict under the warning disposition: when `lint_inner`
completes without an execution failure, `lint` fails carrying the effective
fatal count exactly when that count is nonzero, and succeeds exactly when
it is zero. -/
theorem lint_verdict_disposition (lints : List Lint) (wd : WarningDisposition)
    (rt : RootType) (skip : List String) (root : FsNode) (entries : List WalkEntry)
    (lines : List String) (t : LintExecutionResult)
    (h : lint_inner lints rt skip root entries = (lines, Except.ok t)) :
    ((lint lints wd rt skip root entries).2
        = Except.error ("Checks failed: " ++ toString (effectiveFatal wd t))
      ↔ effectiveFatal wd t ≠ 0)
    ∧ ((lint lints wd rt skip root entries).2 = Except.ok () ↔ effectiveFatal wd t = 0) := by
  unfold lint
  rw [h]
  by_cases he : effectiveFatal wd t = 0
  · simp [he]
  · have hpos : effectiveFatal wd t > 0 := Nat.pos_of_ne_zero he
    simp [hpos, he]

/-- C4: the two-tier error policy: an execution failure anywhere in the
merged outcome list aborts the whole run with an error naming the offending
rule (whatever outcomes follow it), while a run whose outcomes are all at
the ok level (passes and violations) never aborts — every violation is
written to the transcript and processing continues to the next rule. -/
theorem two_tier_error_policy (pre rest rs : List (Lint × LintResult)) (l : Lint) (e : String)
    (h1 : ∀ q ∈ pre, ∃ v, q.2 = Except.ok v)
    (h2 : ∀ q ∈ rs, ∃ v, q.2 = Except.ok v) :
    (processResults (pre ++ (l, Except.error e) :: rest)).2
        = Except.error ("Unexpected runtime error running lint " ++ l.name ++ ": " ++ e)
      ∧ (processResults rs).1 = violationLines rs
      ∧ ∃ t, (processResults rs).2 = Except.ok t := by
  refine ⟨?_, (processResults_no_error rs h2).1, (processResults_no_error rs h2).2⟩
  rw [processResults_abort pre l e rest h1]

/-- C5: early termination of the shared walk: entered with no recursive
rule remaining active, the callback immediately breaks without touching the
state, and the walk visits no further entry. -/
theorem walk_early_termination (st : WalkState) (e : WalkEntry) (es : List WalkEntry)
    (h : st.active = []) :
    lintWalkCallback st e = (WalkFlow.brk, st) ∧ runWalk st es = st := by
  have hcb : ∀ e2, lintWalkCallback st e2 = (WalkFlow.brk, st) := by
    intro e2
    unfold lintWalkCallback
    rw [h]
    rfl
  refine ⟨hcb e, ?_⟩
  cases es with
  | nil => rfl
  | cons e2 rest =>
    unfold runWalk
    rw [hcb e2]

/-- C6: the utf8 rule: a non-UTF-8 raw filename yields the Fatal violation
naming the parent directory and the escaped raw name — regardless of the
entry's type or link target, i.e. before any target inspection; a symlink
with a valid name but non-UTF-8 target yields the distinct violation naming
the symlink's own path. -/
theorem check_utf8_behavior (e1v e2v : WalkEntry) (t : List Nat)
    (h1 : utf8Valid e1v.filename = false)
    (h2 : utf8Valid e2v.filename = true)
    (h3 : e2v.file_type.isSymlink = true)
    (h4 : e2v.link_target = Except.ok t)
    (h5 : utf8Valid t = false) :
    check_utf8 e1v = lint_err (pathQuotedDisplay e1v.path.dropLast
        ++ ": Found non-utf8 filename " ++ osstrDebug e1v.filename)
      ∧ check_utf8 e2v
        = lint_err (pathQuotedDisplay e2v.path ++ ": Found non-utf8 symlink target") := by
  constructor
  · simp [check_utf8, h1]
  · simp [check_utf8, h2, h3, h4, h5]

/-- C10: the etc-usretc rule tolerates a missing `/etc` entirely — whatever
`/usr/etc` looks like — and reports its violation exactly when both `/etc`
and `/usr/etc` are present. -/
theorem check_usretc_edge (root : FsNode) :
    (resolvePath root ["etc"] = none → check_usretc root = lint_ok)
    ∧ (check_usretc root
        = lint_err ("Found /usr/etc - this is a bootc implementation detail and not supported to use in containers")
      ↔ (resolvePath root ["etc"]).isSome = true
          ∧ (resolvePath root ["usr", "etc"]).isSome = true) := by
  constructor
  · intro h
    unfold check_usretc
    rw [h]
    rfl
  · unfold check_usretc
    rcases he : resolvePath root ["etc"] with _ | v
    · simp only [Option.isSome_none, Bool.not_false, if_true]
      constructor
      · intro hc
        exact absurd hc (by simp [lint_ok, lint_err])
      · intro hc
        exact absurd hc.1 (by simp)
    · simp only [Option.isSome_some, Bool.not_true, Bool.false_eq_true, ite_false]
      rcases hu : resolvePath root ["usr", "etc"] with _ | w
      · simp only [Option.isSome_none, Bool.false_eq_true, ite_false]
        constructor
        · intro hc
          exact absurd hc (by simp [lint_ok, lint_err])
        · intro hc
          exact absurd hc.2 (by simp)
      · simp only [Option.isSome_some, if_true]
        simp

/-- C7 helper: the collected set of the forward-ordered tree. -/
theorem collect_two_fwd (s1 s2 : Nat) (h1 : 0 < s1) (h2 : 0 < s2) :
    collectEntries (FsEntries.ofList
        [("app.log", FsNode.file s1),
         ("app2", FsNode.dir (FsEntries.ofList [("info.log", FsNode.file s2)]))])
      ("/var/log") []
      = ["/var/log/app.log", "/var/log/app2/info.log"] := by
  show collectEntries _ ("/var/log")
      (if s1 > 0 then sortedInsertStr ("/var/log/app.log") [] else []) = _
  rw [if_pos h1]
  show collectEntries FsEntries.nil ("/var/log")
      (if s2 > 0 then sortedInsertStr ("/var/log/app2/info.log") ["/var/log/app.log"]
        else ["/var/log/app.log"]) = _
  rw [if_pos h2]
  decide

/-- C7 helper: the collected set of the reverse-ordered tree. -/
theorem collect_two_rev (s1 s2 : Nat) (h1 : 0 < s1) (h2 : 0 < s2) :
    collectEntries (FsEntries.ofList
        [("app2", FsNode.dir (FsEntries.ofList [("info.log", FsNode.file s2)])),
         ("app.log", FsNode.file s1)])
      ("/var/log") []
      = ["/var/log/app.log", "/var/log/app2/info.log"] := by
  show collectEntries _ ("/var/log")
      (if s2 > 0 then sortedInsertStr ("/var/log/app2/info.log") [] else []) = _
  rw [if_pos h2]
  show collectEntries FsEntries.nil ("/var/log")
      (if s1 > 0 then sortedInsertStr ("/var/log/app.log") ["/var/log/app2/info.log"]
        else ["/var/log/app2/info.log"]) = _
  rw [if_pos h1]
  decide

/-- C7: the var-log rule on a root whose only non-empty regular files under
`var/log` are `var/log/app.log` and `var/log/app2/info.log`, both of
positive size: exactly one violation, naming the lexicographically least
offending path and stating "(and 1 more)" — in either readdir order. -/
theorem check_varlog_two_files (s1 s2 : Nat) (h1 : 0 < s1) (h2 : 0 < s2) :
    check_varlog (FsNode.dir (FsEntries.ofList [("var", FsNode.dir (FsEntries.ofList
        [("log", FsNode.dir (FsEntries.ofList
          [("app.log", FsNode.file s1),
           ("app2", FsNode.dir (FsEntries.ofList [("info.log", FsNode.file s2)]))]))]))]))
      = lint_err ("Found non-empty logfile: /var/log/app.log (and 1 more)")
    ∧ check_varlog (FsNode.dir (FsEntries.ofList [("var", FsNode.dir (FsEntries.ofList
        [("log", FsNode.dir (FsEntries.ofList
          [("app2", FsNode.dir (FsEntries.ofList [("info.log", FsNode.file s2)])),
           ("app.log", FsNode.file s1)]))]))]))
      = lint_err ("Found non-empty logfile: /var/log/app.log (and 1 more)") := by
  have harm : ∀ out : List String,
      out = ["/var/log/app.log", "/var/log/app2/info.log"] →
      (match out with
        | [] => lint_ok
        | first :: rest =>
          lint_err ("Found non-empty logfile: " ++ first
            ++ (if rest.length > 0 then " (and " ++ toString rest.length ++ " more)" else "")))
        = lint_err ("Found non-empty logfile: /var/log/app.log (and 1 more)") := by
    intro out h
    subst h
    rfl
  constructor
  · exact harm _ (collect_two_fwd s1 s2 h1 h2)
  · exact harm _ (collect_two_rev s1 s2 h1 h2)

/-- C8: determinism of the transcript: in this pure model a rerun on
identical inputs is definitionally the same run, and the canonical
name-sort makes the whole output — transcript and verdict — invariant
under the registry's iteration order (the only run-to-run variation the
implementation admits), for any registry with unique rule names. -/
theorem lint_transcript_deterministic (L1 L2 : List Lint) (wd : WarningDisposition)
    (rt : RootType) (skip : List String) (root : FsNode) (entries : List WalkEntry)
    (hperm : L1.Perm L2) (hnodup : (L1.map (fun l => l.name)).Nodup) :
    lint L1 wd rt skip root entries = lint L2 wd rt skip root entries := by
  have hfil : ((L1.filter (lintPred skip rt)).map (fun l => l.name)).Nodup :=
    hnodup.sublist (List.Sublist.map (fun l => l.name) (List.filter_sublist L1))
  have hsorted : applicableSorted L1 rt skip = applicableSorted L2 rt skip :=
    sortByName_eq_of_perm (hperm.filter (lintPred skip rt)) hfil
  have hskip : skippedCount L1 rt skip = skippedCount L2 rt skip := by
    unfold skippedCount
    exact (hperm.filter (fun l => !lintPred skip rt l)).length_eq
  have hinner : lint_inner L1 rt skip root entries = lint_inner L2 rt skip root entries := by
    unfold lint_inner lintInnerResults
    rw [hsorted, hskip]
  unfold lint
  rw [hinner]

/-- C2 counterexample: with the registered rules of this module, an empty
skip set, and the Alternative root type, the run's `skipped` tally is 1
(the Running-only var-tmpfiles rule), while the claimed
`|S ∩ applicable-rules|` is 0 for `S = ∅`: the claimed equality fails. -/
theorem skip_tally_counterexample :
    (lint_inner LINTS RootType.Alternative [] (FsNode.dir FsEntries.nil) []).2
        = Except.ok ⟨2, 8, 1, 2⟩
      ∧ ¬((1 : Nat) = ([] : List String).length) :=
  ⟨rfl, by decide⟩

theorem first_failure_wins_witness :
    (lintInnerResults [LINT_UTF8] RootType.Alternative [] (FsNode.dir FsEntries.nil)
        [badEntry1, badEntry2]).filter (fun p => p.1.name == LINT_UTF8.name)
      = [(LINT_UTF8, specFirstFailure LINT_UTF8 [badEntry1, badEntry2])]
    ∧ specFirstFailure LINT_UTF8 [badEntry1, badEntry2]
      = lint_err ("/: Found non-utf8 filename \"bad\\xFF\"")
    ∧ check_utf8 badEntry2 = lint_err ("/: Found non-utf8 filename \"bad\\xFE\"") :=
  ⟨first_failure_wins [LINT_UTF8] RootType.Alternative [] (FsNode.dir FsEntries.nil)
      [badEntry1, badEntry2] LINT_UTF8 (by decide) (List.mem_singleton.mpr rfl) rfl rfl,
    rfl, rfl⟩

theorem lint_verdict_disposition_witness :
    (lint [] WarningDisposition.AllowWarnings RootType.Alternative []
        (FsNode.dir FsEntries.nil) []).2 = Except.ok () :=
  (lint_verdict_disposition [] WarningDisposition.AllowWarnings RootType.Alternative []
      (FsNode.dir FsEntries.nil) [] [] ⟨0, 0, 0, 0⟩ rfl).2.mpr rfl

theorem two_tier_error_policy_witness :
    (processResults ([(LINT_VAR_RUN, lint_ok)]
        ++ (LINT_KERNEL, Except.error ("boom")) :: [(LINT_VARLOG, lint_ok)])).2
        = Except.error ("Unexpected runtime error running lint kernel: boom")
      ∧ (processResults [(LINT_VARLOG, lint_err ("v"))]).1
        = violationLines [(LINT_VARLOG, lint_err ("v"))]
      ∧ ∃ t, (processResults [(LINT_VARLOG, lint_err ("v"))]).2 = Except.ok t :=
  two_tier_error_policy [(LINT_VAR_RUN, lint_ok)] [(LINT_VARLOG, lint_ok)]
    [(LINT_VARLOG, lint_err ("v"))] LINT_KERNEL ("boom")
    (by
      intro q hq
      rcases List.mem_singleton.mp hq with rfl
      exact ⟨Except.ok (), rfl⟩)
    (by
      intro q hq
      rcases List.mem_singleton.mp hq with rfl
      exact ⟨Except.error ⟨"v"⟩, rfl⟩)

theorem walk_early_termination_witness :
    lintWalkCallback ⟨[], [(LINT_UTF8, lint_err ("x"))]⟩ badEntry1
        = (WalkFlow.brk, ⟨[], [(LINT_UTF8, lint_err ("x"))]⟩)
      ∧ runWalk ⟨[], [(LINT_UTF8, lint_err ("x"))]⟩ [badEntry1, badEntry2]
        = ⟨[], [(LINT_UTF8, lint_err ("x"))]⟩ :=
  walk_early_termination ⟨[], [(LINT_UTF8, lint_err ("x"))]⟩ badEntry1
    [badEntry1, badEntry2] rfl

theorem check_utf8_behavior_witness :
    check_utf8 badEntry1 = lint_err ("/: Found non-utf8 filename \"bad\\xFF\"")
      ∧ check_utf8 badLinkEntry = lint_err ("/sub/lnk: Found non-utf8 symlink target") :=
  check_utf8_behavior badEntry1 badLinkEntry [255] rfl rfl rfl rfl rfl

theorem check_varlog_two_files_witness :
    check_varlog (FsNode.dir (FsEntries.ofList [("var", FsNode.dir (FsEntries.ofList
        [("log", FsNode.dir (FsEntries.ofList
          [("app.log", FsNode.file 1),
           ("app2", FsNode.dir (FsEntries.ofList [("info.log", FsNode.file 2)]))]))]))]))
      = lint_err ("Found non-empty logfile: /var/log/app.log (and 1 more)") :=
  (check_varlog_two_files 1 2 (by decide) (by decide)).1

theorem lint_transcript_deterministic_witness :
    lint [LINT_VAR_RUN, LINT_VARLOG] WarningDisposition.AllowWarnings RootType.Alternative
        [] (FsNode.dir FsEntries.nil) []
      = lint [LINT_VARLOG, LINT_VAR_RUN] WarningDisposition.AllowWarnings RootType.Alternative
        [] (FsNode.dir FsEntries.nil) [] :=
  lint_transcript_deterministic [LINT_VAR_RUN, LINT_VARLOG] [LINT_VARLOG, LINT_VAR_RUN]
    WarningDisposition.AllowWarnings RootType.Alternative [] (FsNode.dir FsEntries.nil) []
    (List.Perm.swap LINT_VARLOG LINT_VAR_RUN []) (by decide)

theorem tally_partition_witness : (8 : Nat) + 1 + 2 + 2 = LINTS.length :=
  tally_partition LINTS RootType.Alternative [] (FsNode.dir FsEntries.nil) []
    ["Failed lint: api-base-directories: Missing API filesystem base directory: /dev",
     "Lint warning: baseimage-composefs: usr/lib/ostree/prepare-root.conf is not present to enable composefs",
     "Failed lint: baseimage-root: Missing /sysroot",
     "Lint warning: nonempty-boot: Missing /boot directory"]
    ⟨2, 8, 1, 2⟩ (by decide) rfl

theorem check_usretc_edge_witness :
    check_usretc (FsNode.dir FsEntries.nil) = lint_ok :=
  (check_usretc_edge (FsNode.dir FsEntries.nil)).1 rfl
